import Mathlib

/-!
Verification of the WebHound fetch-and-analyze pipeline.

This file gives a shallow embedding, in Lean 4, of the parts of the
WebHound crawler that the specification's testable properties speak
about: the fingerprinter (`core/src/utils.rs`), the asset router, text
sniffing, pattern-scan report writing and archive-member routing
(`scanner/src/crawler.rs`), the live-or-archive fetcher
(`scanner/src/net.rs`), and the static report server
(`server/src/server.rs`).  Machine integers are modelled as `Nat` with
explicit reductions modulo `2 ^ w`; `f64` entropy arithmetic is modelled
over `ℝ`; filesystem paths are modelled as lists of components; fallible
operations return `Except`.  External collaborators (the HTTP client,
the HTML parser, the `url` crate, the pattern data) are modelled as
oracles or, for the `url` crate, as a simplified parser covering the
plain ASCII `scheme://host/path` shape that the concrete test inputs
use.
-/

/-! ## Bytes -/

/-- A byte, as stored in the buffers the crawler manipulates. -/
abbrev Byte := Fin 256

/-! ## Path model

Filesystem paths are modelled as lists of components.  `PathBuf::join`
with a string argument can add several components when the argument
contains `/`; `splitSlash` reproduces that splitting. -/

/-- Split a character list on `/`, keeping empty pieces (the component
lists `PathBuf` would traverse). -/
def splitSlash : List Char → List (List Char)
  | [] => [[]]
  | c :: rest =>
    if c = '/' then [] :: splitSlash rest
    else
      match splitSlash rest with
      | [] => [[c]]
      | s :: ss => (c :: s) :: ss

/-- Components of a string pushed onto a `PathBuf`. -/
def splitSlashStr (s : String) : List String :=
  (splitSlash s.data).map fun cs => String.mk cs

/-- `PathBuf::join`: append the components of `s` to `base` — except
that an absolute `s` (one starting with `/`) replaces the path
entirely, as `PathBuf::push` specifies. -/
def pathJoin (base : List String) (s : String) : List String :=
  if s.data.head? = some '/' then splitSlashStr s
  else base ++ splitSlashStr s

/-- One step of lexical path resolution: `.` and empty components are
skipped, `..` pops the last component, anything else is pushed. -/
def resolveStep (acc : List String) (c : String) : List String :=
  if c = "" ∨ c = "." then acc
  else if c = ".." then acc.dropLast
  else acc ++ [c]

/-- Lexical resolution of a component list (how the OS resolves the
path in the absence of symlinks). -/
def resolvePath (comps : List String) : List String :=
  comps.foldl resolveStep []

/-- A component that resolution neither skips nor interprets. -/
def NormalComp (s : String) : Prop := s ≠ "" ∧ s ≠ "." ∧ s ≠ ".."

instance (s : String) : Decidable (NormalComp s) := by
  unfold NormalComp; infer_instance

/-- All components of a path are normal. -/
def NormalComps (l : List String) : Prop := ∀ s ∈ l, NormalComp s

instance (l : List String) : Decidable (NormalComps l) := by
  unfold NormalComps; infer_instance

/-! ## SHA-256 (`sha2::Sha256`, external dependency of `sanitize_filename`)

A direct executable implementation over `Nat`, reduced modulo `2 ^ 32`
where the Rust code relies on 32-bit wrap-around. -/

/-- 32-bit right rotation. -/
def rotr32 (n x : Nat) : Nat := ((x >>> n) ||| (x <<< (32 - n))) % 2 ^ 32

/-- SHA-256 round constants. -/
def shaK : List Nat :=
  [0x428A2F98, 0x71374491, 0xB5C0FBCF, 0xE9B5DBA5, 0x3956C25B, 0x59F111F1,
   0x923F82A4, 0xAB1C5ED5, 0xD807AA98, 0x12835B01, 0x243185BE, 0x550C7DC3,
   0x72BE5D74, 0x80DEB1FE, 0x9BDC06A7, 0xC19BF174, 0xE49B69C1, 0xEFBE4786,
   0x0FC19DC6, 0x240CA1CC, 0x2DE92C6F, 0x4A7484AA, 0x5CB0A9DC, 0x76F988DA,
   0x983E5152, 0xA831C66D, 0xB00327C8, 0xBF597FC7, 0xC6E00BF3, 0xD5A79147,
   0x06CA6351, 0x14292967, 0x27B70A85, 0x2E1B2138, 0x4D2C6DFC, 0x53380D13,
   0x650A7354, 0x766A0ABB, 0x81C2C92E, 0x92722C85, 0xA2BFE8A1, 0xA81A664B,
   0xC24B8B70, 0xC76C51A3, 0xD192E819, 0xD6990624, 0xF40E3585, 0x106AA070,
   0x19A4C116, 0x1E376C08, 0x2748774C, 0x34B0BCB5, 0x391C0CB3, 0x4ED8AA4A,
   0x5B9CCA4F, 0x682E6FF3, 0x748F82EE, 0x78A5636F, 0x84C87814, 0x8CC70208,
   0x90BEFFFA, 0xA4506CEB, 0xBEF9A3F7, 0xC67178F2]

/-- Big-endian byte decomposition of `v` into `n` bytes. -/
def bytesBE : Nat → Nat → List Nat
  | 0, _ => []
  | n + 1, v => bytesBE n (v >>> 8) ++ [v % 256]

/-- Group a byte list into 16 big-endian 32-bit words per 64-byte chunk,
using explicit structural fuel so that the kernel can evaluate it. -/
def wordsOf : Nat → List Nat → List Nat
  | 0, _ => []
  | _, [] => []
  | fuel + 1, b0 :: b1 :: b2 :: b3 :: rest =>
    (((b0 <<< 24) + (b1 <<< 16) + (b2 <<< 8) + b3) % 2 ^ 32) :: wordsOf fuel rest
  | _ + 1, _ => []

/-- Extend a 16-word block to the 64-word message schedule. -/
def extendW : Nat → List Nat → List Nat
  | 0, w => w
  | n + 1, w =>
    let i := w.length
    let w15 := w.getD (i - 15) 0
    let w2 := w.getD (i - 2) 0
    let s0 := rotr32 7 w15 ^^^ rotr32 18 w15 ^^^ (w15 >>> 3)
    let s1 := rotr32 17 w2 ^^^ rotr32 19 w2 ^^^ (w2 >>> 10)
    extendW n (w ++ [(w.getD (i - 16) 0 + s0 + w.getD (i - 7) 0 + s1) % 2 ^ 32])

/-- The eight working variables of the compression function. -/
structure ShaState where
  a : Nat
  b : Nat
  c : Nat
  d : Nat
  e : Nat
  f : Nat
  g : Nat
  h : Nat

/-- One round of the SHA-256 compression function. -/
def shaRound (st : ShaState) (kw : Nat × Nat) : ShaState :=
  let s1 := rotr32 6 st.e ^^^ rotr32 11 st.e ^^^ rotr32 25 st.e
  let ch := (st.e &&& st.f) ^^^ ((st.e ^^^ (2 ^ 32 - 1)) &&& st.g)
  let t1 := (st.h + s1 + ch + kw.1 + kw.2) % 2 ^ 32
  let s0 := rotr32 2 st.a ^^^ rotr32 13 st.a ^^^ rotr32 22 st.a
  let mj := (st.a &&& st.b) ^^^ (st.a &&& st.c) ^^^ (st.b &&& st.c)
  let t2 := (s0 + mj) % 2 ^ 32
  ⟨(t1 + t2) % 2 ^ 32, st.a, st.b, st.c, (st.d + t1) % 2 ^ 32, st.e, st.f, st.g⟩

/-- Compress one 64-byte chunk into the running hash value. -/
def shaChunk (hs : ShaState) (chunk : List Nat) : ShaState :=
  let w := extendW 48 (wordsOf 16 chunk)
  let st := (shaK.zip w).foldl shaRound hs
  ⟨(hs.a + st.a) % 2 ^ 32, (hs.b + st.b) % 2 ^ 32, (hs.c + st.c) % 2 ^ 32,
   (hs.d + st.d) % 2 ^ 32, (hs.e + st.e) % 2 ^ 32, (hs.f + st.f) % 2 ^ 32,
   (hs.g + st.g) % 2 ^ 32, (hs.h + st.h) % 2 ^ 32⟩

/-- Fold the compression function over the 64-byte chunks of a padded
message, with structural fuel for kernel evaluation. -/
def shaChunks : Nat → ShaState → List Nat → ShaState
  | 0, hs, _ => hs
  | _, hs, [] => hs
  | fuel + 1, hs, l => shaChunks fuel (shaChunk hs (l.take 64)) (l.drop 64)

/-- SHA-256 padding: `0x80`, zeros, then the 64-bit big-endian bit length. -/
def shaPad (msg : List Nat) : List Nat :=
  let l := msg.length
  msg ++ [0x80] ++ List.replicate ((64 - (l + 9) % 64) % 64) 0
      ++ bytesBE 8 ((8 * l) % 2 ^ 64)

/-- SHA-256 digest (32 bytes) of a byte list. -/
def sha256 (msg : List Nat) : List Nat :=
  let padded := shaPad msg
  let hs := shaChunks (padded.length) ⟨0x6A09E667, 0xBB67AE85, 0x3C6EF372,
    0xA54FF53A, 0x510E527F, 0x9B05688C, 0x1F83D9AB, 0x5BE0CD19⟩ padded
  bytesBE 4 hs.a ++ bytesBE 4 hs.b ++ bytesBE 4 hs.c ++ bytesBE 4 hs.d ++
  bytesBE 4 hs.e ++ bytesBE 4 hs.f ++ bytesBE 4 hs.g ++ bytesBE 4 hs.h

/-- The sixteen lowercase hexadecimal digits. -/
def hexChars : List Char := "0123456789abcdef".data

/-- Lowercase hex rendering of a byte list (Rust `format!("{:x}", …)`). -/
def hexOfBytes (bs : List Nat) : List Char :=
  bs.flatMap fun b => [hexChars.getD (b / 16 % 16) '0', hexChars.getD (b % 16) '0']

/-- UTF-8 encoding of one character, as `str::as_bytes` would produce. -/
def utf8Bytes (c : Char) : List Nat :=
  let n := c.toNat
  if n < 0x80 then [n]
  else if n < 0x800 then [0xC0 + n / 64, 0x80 + n % 64]
  else if n < 0x10000 then [0xE0 + n / 4096, 0x80 + n / 64 % 64, 0x80 + n % 64]
  else [0xF0 + n / 262144, 0x80 + n / 4096 % 64, 0x80 + n / 64 % 64, 0x80 + n % 64]

/-- The UTF-8 bytes of a string (`str::as_bytes`). -/
def strBytes (s : String) : List Nat := s.data.flatMap utf8Bytes

/-! ## URL model

Modelled from the `url` crate (an external dependency): a simplified
parser for plain ASCII URLs of shape `scheme://host[:port]/path…`, which
is the shape every concrete input in this development uses.  `host` is
lowercased and stripped of the port, the path is everything from the
first `/` after the host up to `?` or `#` and defaults to `/`;
percent-encoding and IDNA are not modelled.  Parsing fails (`none`) when
`://` is missing, the scheme is not alphabetic, or the host is empty. -/

structure ParsedUrl where
  scheme : String
  host : String
  path : String
deriving DecidableEq

/-- Index of the first occurrence of `pat` in `s`, as `str::find`. -/
def findSub (s pat : List Char) : Option Nat :=
  if pat.isPrefixOf s then some 0
  else
    match s with
    | [] => none
    | _ :: t => (findSub t pat).map (· + 1)

/-- ASCII lowercasing of one character. -/
def asciiLower (c : Char) : Char :=
  if 'A' ≤ c ∧ c ≤ 'Z' then Char.ofNat (c.toNat + 32) else c

/-- Parse a URL in the simplified model. -/
def parseUrlModel (s : String) : Option ParsedUrl :=
  match findSub s.data ['/', '/'] with
  | none => none
  | some i =>
    if 2 ≤ i ∧ i + 2 ≤ s.data.length then
      let schemeColon := s.data.take i
      let scheme := schemeColon.take (i - 1)
      if schemeColon.getD (i - 1) ' ' = ':' ∧ scheme ≠ [] ∧
          (∀ c ∈ scheme, c.isAlpha) then
        let rest := s.data.drop (i + 2)
        let hostPort := rest.takeWhile fun c => c ≠ '/' ∧ c ≠ '?' ∧ c ≠ '#'
        let host := hostPort.takeWhile fun c => c ≠ ':'
        let afterHost := rest.drop hostPort.length
        let path := afterHost.takeWhile fun c => c ≠ '?' ∧ c ≠ '#'
        if host = [] then none
        else some ⟨String.mk scheme, String.mk (host.map asciiLower),
          String.mk (if path = [] then ['/'] else path)⟩
      else none
    else none

/-! ## `core::utils::sanitize_filename` -/

/-- The characters `sanitize_filename` replaces: `r#"/\:?*"<>| "#`. -/
def replacedChars : List Char :=
  ['/', '\\', ':', '?', '*', '"', '<', '>', '|', ' ']

/-- `core::utils::sanitize_filename`: SHA-256-suffixed, filesystem-safe
name for a URL.  Direct translation of the Rust function; `truncate`
acts on characters (all relevant characters are ASCII, one byte each). -/
def sanitize_filename (url : String) : String :=
  let hex := hexOfBytes (sha256 (strBytes url))
  let short := hex.take 12
  let parsed := parseUrlModel url
  let host := match parsed with
    | some u => u.host
    | none => "unknown"
  let path0 := match parsed with
    | some u => u.path
    | none => "/"
  let path1 := path0.data.map fun c => if c = '/' then '_' else c
  let path2 := path1.take 40
  let base := host.data ++ path2
  let base2 := base.map fun c => if c ∈ replacedChars then '_' else c
  String.mk ((base2 ++ ['_', '_'] ++ short).take 100)

/-! ## `scanner::crawler` — extension detection and asset routing -/

/-- The known text extensions (`TEXT_EXTS` in `crawler.rs`). -/
def TEXT_EXTS : List String :=
  ["html", "htm", "shtml", "xhtml", "php", "asp", "aspx", "jsp",
   "txt", "js", "json", "xml", "csv", "ini", "conf", "config",
   "env", "yaml", "yml", "log", "bak", "old", "sql"]

/-- The known archive extensions (`ARCHIVE_EXTS` in `crawler.rs`). -/
def ARCHIVE_EXTS : List String := ["zip", "tar", "tgz", "gz", "bz2", "xz"]

/-- The piece of `cs` after the last occurrence of `sep`
(`str::rsplit(sep).next()`). -/
def lastSegmentAfter (cs : List Char) (sep : Char) : List Char :=
  (cs.reverse.takeWhile fun c => c ≠ sep).reverse

/-- `detect_ext`: lowercased substring after the final `.` of the last
path segment; `none` when the URL does not parse or the segment has no
dot. -/
def detect_ext (u : String) : Option String :=
  (parseUrlModel u).bind fun url =>
    let name := lastSegmentAfter url.path.data '/'
    if '.' ∈ name then
      some (String.mk ((lastSegmentAfter name '.').map asciiLower))
    else none

/-- `is_html_ext`. -/
def is_html_ext (ext : String) : Bool :=
  ext = "html" ∨ ext = "htm" ∨ ext = "shtml" ∨ ext = "xhtml" ∨
    ext = "php" ∨ ext = "asp" ∨ ext = "aspx" ∨ ext = "jsp"

/-- The three workspace directories handed to the crawler
(`core::analysis::PathsLike`), as component lists. -/
structure PathsModel where
  screenshotsDir : List String
  jsscriptsDir : List String
  assetsDir : List String

/-- `asset_path_for`: route a (URL, extension) pair to its on-disk
path.  `js` goes to the JSscripts bucket, known text/archive extensions
to their own `assets` subdirectory, anything else to `assets/bin`. -/
def asset_path_for (url ext : String) (paths : PathsModel) : List String :=
  let safe := sanitize_filename url
  if ext = "js" then pathJoin paths.jsscriptsDir (safe ++ ".js")
  else
    let subdir := if ext ∈ TEXT_EXTS ∨ ext ∈ ARCHIVE_EXTS then ext else "bin"
    pathJoin (paths.assetsDir ++ [subdir]) (safe ++ "." ++ ext)

/-- `build_asset_path_from_parts`: the path used for archive members,
built from the virtual URL, the member extension and the assets root. -/
def build_asset_path_from_parts (url ext : String) (assetsRoot : List String) :
    List String :=
  let safe := sanitize_filename url
  let subdir := if ext ∈ TEXT_EXTS ∨ ext ∈ ARCHIVE_EXTS then ext else "bin"
  pathJoin (assetsRoot ++ [subdir]) (safe ++ "." ++ ext)

/-! ## `scanner::crawler` — text sniffing -/

/-- Whether the byte counts as weird in `is_probably_text`: `\n`, `\r`
and `\t` are skipped, every other byte outside `0x20..=0x7E` counts. -/
def weirdByte (b : Byte) : Bool :=
  if b.val = 10 ∨ b.val = 13 ∨ b.val = 9 then false
  else decide (¬ (0x20 ≤ b.val ∧ b.val ≤ 0x7E))

/-- `is_probably_text`: sample the first `min (len, 2048)` bytes and
declare text iff less than a tenth of the sample is weird. -/
def is_probably_text (data : List Byte) : Bool :=
  if data = [] then false
  else
    let sampleLen := min data.length 2048
    let weird := (data.take sampleLen).countP weirdByte
    decide (weird * 10 < sampleLen)

/-! ## `scanner::crawler` — entropy scorer

`shannon_entropy` works on `f64`; it is modelled over `ℝ`.  The Rust
code sums over the entries of the byte-frequency `HashMap`, i.e. over
the bytes of nonzero count; the sum below ranges over all 256 byte
values, which is equal because a byte of zero count contributes the
term `0 * logb 2 0 = 0`. -/

/-- Relative frequency of byte `b` in `l`. -/
noncomputable def byteP (l : List Byte) (b : Byte) : ℝ :=
  (l.count b : ℝ) / (l.length : ℝ)

/-- Entropy in bits per byte: `-Σ p_i · log2 p_i`. -/
noncomputable def entropyBits (l : List Byte) : ℝ :=
  -∑ b : Byte, byteP l b * Real.logb 2 (byteP l b)

/-- `shannon_entropy`: `(bits_per_char, total_bits, len)`. -/
noncomputable def shannon_entropy (l : List Byte) : ℝ × ℝ × ℕ :=
  if l = [] then (0, 0, 0)
  else (entropyBits l, entropyBits l * (l.length : ℝ), l.length)

/-! ## `scanner::crawler` — link extraction

The HTML parser (the `select` crate) and the `url` crate's full parser
and join are external; they enter the model as the collected raw
`href`/`src` attribute values and as an abstract operations record. -/

/-- Whitespace as `str::trim` sees it (Unicode `White_Space`). -/
def rustWhitespace (c : Char) : Bool :=
  c ∈ [' ', '\t', '\n', '\x0b', '\x0c', '\r', '\u0085', '\u00a0', '\u1680',
    '\u2000', '\u2001', '\u2002', '\u2003', '\u2004', '\u2005', '\u2006',
    '\u2007', '\u2008', '\u2009', '\u200a', '\u2028', '\u2029', '\u202f',
    '\u205f', '\u3000']

/-- `str::trim`. -/
def rustTrim (s : String) : String :=
  String.mk (((s.data.dropWhile rustWhitespace).reverse.dropWhile
    rustWhitespace).reverse)

/-- Abstract interface to the `url` crate as `normalize_url` uses it:
absolute parse, base-relative join, and rendering back to a string. -/
structure UrlOps (U : Type) where
  parse : String → Option U
  join : U → String → Option U
  render : U → String

/-- `str::starts_with` for string arguments (kernel-evaluable: a
character-level prefix test, which agrees with Rust's byte-level test
on valid UTF-8). -/
def rustStartsWith (s pre : String) : Bool :=
  pre.data.isPrefixOf s.data

/-- A raw attribute value `normalize_url` drops: empty after trimming,
or starting with `#`, `mailto:`, `javascript:` or `data:`. -/
def skippedRaw (raw : String) : Prop :=
  rustTrim raw = "" ∨ rustStartsWith (rustTrim raw) "#" = true ∨
    rustStartsWith (rustTrim raw) "mailto:" = true ∨
    rustStartsWith (rustTrim raw) "javascript:" = true ∨
    rustStartsWith (rustTrim raw) "data:" = true

instance (raw : String) : Decidable (skippedRaw raw) := by
  unfold skippedRaw; infer_instance

/-- `normalize_url`: trim, drop skip-worthy values, otherwise absolute
parse with base-relative fallback. -/
def normalize_url {U : Type} (ops : UrlOps U) (base : U) (raw : String) :
    Option String :=
  let s := rustTrim raw
  if s = "" then none
  else if rustStartsWith s "#" ∨ rustStartsWith s "mailto:" ∨
      rustStartsWith s "javascript:" ∨ rustStartsWith s "data:" then none
  else
    match ops.parse s with
    | some abs => some (ops.render abs)
    | none =>
      match ops.join base s with
      | some j => some (ops.render j)
      | none => none

/-- `extract_links`: parse the base URL (empty set on failure), then
normalize every collected `href` value and every collected `src` value,
inserting the results into a set (the `HashSet` is modelled as a
`Finset`, which deduplicates by construction). -/
def extract_links {U : Type} (ops : UrlOps U) (baseUrl : String)
    (hrefs srcs : List String) : Finset String :=
  match ops.parse baseUrl with
  | none => ∅
  | some base =>
    (hrefs.filterMap (normalize_url ops base) ++
      srcs.filterMap (normalize_url ops base)).toFinset

/-- `root_of`: `"{scheme}://{host}"` of a parseable URL. -/
def root_of (url : String) : Option String :=
  (parseUrlModel url).map fun u => u.scheme ++ "://" ++ u.host

/-! ## `scanner::net::fetch_live_or_wayback`

The HTTP world is an oracle: the outcome of the live GET (inside its
15-second timeout), of the CDX GET and of the archive GET are inputs.
`reqwest`'s `Status::is_success` is `200..=299`; `error_for_status`
fails on `400..=599`.  The CDX body read and its `serde_json` parse are
merged into one `Except` since both propagate identically. -/

/-- A minimal model of a `serde_json::Value`. -/
inductive JValue where
  | str (s : String)
  | arr (elems : List JValue)
  | other

/-- `Value::as_array`. -/
def JValue.asArray : JValue → Option (List JValue)
  | .arr xs => some xs
  | _ => none

/-- `Value::get` with a numeric index. -/
def JValue.getIdx : JValue → Nat → Option JValue
  | .arr xs, i => xs.get? i
  | _, _ => none

/-- `Value::as_str`. -/
def JValue.asStr : JValue → Option String
  | .str s => some s
  | _ => none

/-- Outcome of `timeout(15s, client.get(url).send())`. -/
inductive LiveOutcome where
  | timeout
  | sendErr (e : String)
  | resp (status : Nat) (body : Except String (List Byte))

/-- Response of the CDX query: HTTP status and the read-and-parsed JSON. -/
structure CdxResp where
  status : Nat
  json : Except String JValue

/-- Response of the archive snapshot GET. -/
structure ArchResp where
  status : Nat
  body : Except String (List Byte)

/-- The network oracle for one `fetch_live_or_wayback` call. -/
structure FetchEnv where
  live : LiveOutcome
  cdxSend : Except String CdxResp
  archSend : Except String ArchResp

/-- `Status::is_success`. -/
def statusIsSuccess (s : Nat) : Bool := 200 ≤ s ∧ s < 300

/-- The hard timeout, in seconds, applied to the live GET
(`Duration::from_secs(15)`). -/
def liveTimeoutSecs : Nat := 15

/-- Timestamp extraction from the CDX JSON: row 1 of the array, column
0 (`fl=timestamp,original`), as a string. -/
def cdxTimestamp (val : JValue) : Option String :=
  ((val.asArray.bind fun arr => arr.get? 1).bind fun row =>
    row.getIdx 0).bind JValue.asStr

/-- The Wayback branch of `fetch_live_or_wayback`. -/
def waybackFallback (env : FetchEnv) (originalUrl : String) :
    Except String (List Byte × String × Bool) :=
  match env.cdxSend with
  | .error e => .error e
  | .ok cdx =>
    if cdx.status ≠ 200 then
      let st := cdx.status
      .error s!"Wayback CDX status {st} for {originalUrl}"
    else
      match cdx.json with
      | .error e => .error e
      | .ok val =>
        match cdxTimestamp val with
        | none => .error s!"Wayback: нет timestamp для {originalUrl}"
        | some ts =>
          let archived := s!"https://web.archive.org/web/{ts}id_/{originalUrl}"
          match env.archSend with
          | .error e => .error e
          | .ok r =>
            if 400 ≤ r.status ∧ r.status ≤ 599 then
              let st := r.status
              .error s!"HTTP status error {st} for {archived}"
            else
              match r.body with
              | .ok data => .ok (data, archived, true)
              | .error e => .error e

/-- `fetch_live_or_wayback`: try the live GET; on timeout, send error
or non-2xx status fall back to the Wayback CDX index.  A body-read
failure of a successful live response propagates as an error. -/
def fetch_live_or_wayback (env : FetchEnv) (originalUrl : String) :
    Except String (List Byte × String × Bool) :=
  match env.live with
  | .resp st body =>
    if statusIsSuccess st then
      match body with
      | .ok data => .ok (data, originalUrl, false)
      | .error e => .error e
    else waybackFallback env originalUrl
  | _ => waybackFallback env originalUrl

/-! ## `scanner::crawler::process_single_url` — error flow

The per-URL state machine absorbs every failure of its sub-operations:
fetch, persist, content analysis and archive inspection errors are
written to standard error and swallowed.  The sub-operations themselves
(whose internals are modelled elsewhere in this file) enter here as an
oracle recording each one's outcome, so that the control flow of
`process_single_url`, `handle_response_for_url` and `handle_html_links`
can be reproduced exactly.  The result is the returned `Result` value
together with the list of `eprintln!` diagnostics. -/

/-- Outcomes of the per-child sub-operations inside `handle_html_links`. -/
structure ChildOutcome where
  fetch : Except String (List Byte × String × Bool)
  save : Except String Unit
  analyze : Except String Unit
  archive : Except String Unit

/-- The oracle for one `process_single_url` call.  `ignorePath` is
modelled from the spec: `core::patterns::should_ignore_path` is pattern
data, "not part of the core's contract", and its source is not under
`src/`.  `links` stands for the extracted link set of the fetched HTML
(including the synthesized `robots.txt` / `sitemap.xml` URLs), and
`htmlUtf8` for whether `std::str::from_utf8` succeeds on the body. -/
structure UrlEnv where
  ignorePath : String → Bool
  fetch : Except String (List Byte × String × Bool)
  save : Except String Unit
  analyze : Except String Unit
  archive : Except String Unit
  htmlUtf8 : Bool
  links : List String
  child : String → ChildOutcome

/-- Diagnostics produced for one child URL of `handle_html_links`. -/
def childLogs (env : UrlEnv) (u : String) : List String :=
  if env.ignorePath u then []
  else
    match (env.child u).fetch with
    | .error e => [s!"[!] Ошибка загрузки ресурса {u}: {e}"]
    | .ok (_, realU, _) =>
      let ext := (detect_ext realU).getD "bin"
      (match (env.child u).save with
        | .error e => [s!"[!] Ошибка сохранения {realU}: {e}"]
        | .ok _ => []) ++
      (match (env.child u).analyze with
        | .error e => [s!"[!] Ошибка анализа содержимого {realU}: {e}"]
        | .ok _ => []) ++
      (if ext ∈ ARCHIVE_EXTS then
        match (env.child u).archive with
        | .error e => [s!"[!] Ошибка анализа архива {realU}: {e}"]
        | .ok _ => []
      else [])

/-- Diagnostics of `handle_response_for_url` (which itself returns `()`:
every error is absorbed). -/
def handleResponseLogs (env : UrlEnv) (finalUrl : String) : List String :=
  let ext := (detect_ext finalUrl).getD "bin"
  (match env.save with
    | .error e => [s!"[!] Ошибка сохранения {finalUrl}: {e}"]
    | .ok _ => []) ++
  (match env.analyze with
    | .error e => [s!"[!] Ошибка анализа содержимого {finalUrl}: {e}"]
    | .ok _ => []) ++
  (if ext ∈ ARCHIVE_EXTS then
    match env.archive with
    | .error e => [s!"[!] Ошибка анализа архива {finalUrl}: {e}"]
    | .ok _ => []
  else []) ++
  (if is_html_ext ext && env.htmlUtf8 then
    (env.links.dedup.flatMap (childLogs env))
  else [])

/-- `process_single_url`: the returned `Result` and the emitted
diagnostics. -/
def process_single_url (env : UrlEnv) (url : String) :
    Except String Unit × List String :=
  if env.ignorePath url then (.ok (), [])
  else
    match env.fetch with
    | .error e => (.ok (), [s!"[!] Ошибка загрузки {url}: {e}"])
    | .ok (_, finalUrl, _) => (.ok (), handleResponseLogs env finalUrl)

/-! ## Report writer (`analyze_bytes_with_rules` / `analyze_archive_file`)

The findings of one URL are composed in memory (the `hits` vector),
then the `tokio::sync::Mutex` around the report file is taken and the
block — one header line, then one line per hit — is written line by
line while the lock is held.  The model is a small interleaving state
machine: any number of writer tasks, each holding its precomposed
block; a task may acquire the free lock, append one line of its block
while holding it, and release it when its block is exhausted. -/

/-- Phase of one writer task. -/
inductive TaskSt where
  | idle
  | writing (rem : List String)
  | done
deriving DecidableEq

/-- Whether a task is not mid-block. -/
def TaskSt.notWriting : TaskSt → Prop
  | .writing _ => False
  | _ => True

/-- State of the report: file contents, lock holder, task phases. -/
structure WState where
  file : List String
  lock : Option Nat
  tasks : List TaskSt
deriving DecidableEq

/-- Interleaving semantics of the report writers: `blocks` assigns each
task its precomposed block. -/
inductive ReportStep (blocks : List (List String)) : WState → WState → Prop where
  | acquire (s : WState) (i : Nat) (b : List String) :
      s.lock = none → s.tasks[i]? = some .idle → blocks[i]? = some b →
      ReportStep blocks s ⟨s.file, some i, s.tasks.set i (.writing b)⟩
  | write (s : WState) (i : Nat) (l : String) (rem : List String) :
      s.lock = some i → s.tasks[i]? = some (.writing (l :: rem)) →
      ReportStep blocks s ⟨s.file ++ [l], some i, s.tasks.set i (.writing rem)⟩
  | release (s : WState) (i : Nat) :
      s.lock = some i → s.tasks[i]? = some (.writing []) →
      ReportStep blocks s ⟨s.file, none, s.tasks.set i .done⟩

/-- Initial state: empty report, free lock, all tasks pending. -/
def reportInit (blocks : List (List String)) : WState :=
  ⟨[], none, blocks.map fun _ => .idle⟩

/-- States reachable by any interleaving of the writers. -/
def ReportReachable (blocks : List (List String)) (s : WState) : Prop :=
  Relation.ReflTransGen (ReportStep blocks) (reportInit blocks) s

/-- The report block of one URL: the header line, then one indented
line per (rule, value) finding. -/
def blockFor (url : String) (findingLines : List String) : List String :=
  url :: findingLines

/-! ## `server::server` — request-path handling

The static report server strips the query and fragment, trims leading
slashes, appends `index.html` to directory requests, collapses `/../`
occurrences with an in-place `replace_range` loop, and then joins the
result under the served directory — except that a path that still
starts with `../` is joined, minus its leading `../` repetitions,
under the PARENT of the served directory.  `Path::parent` is modelled
as `List.dropLast` (the served workspace is never the filesystem
root). -/

/-- The pattern the collapse loop searches for. -/
def slashDotDotSlash : List Char := ['/', '.', '.', '/']

/-- `String::replace_range(a..b, "")`. -/
def replaceRange (s : List Char) (a b : Nat) : List Char :=
  s.take a ++ s.drop b

/-- Index of the last occurrence of `c` (`str::rfind`). -/
def rfindChar : List Char → Char → Option Nat
  | [], _ => none
  | c :: rest, t =>
    match rfindChar rest t with
    | some j => some (j + 1)
    | none => if c = t then some 0 else none

/-- One-pass-per-iteration collapse of `/../` occurrences, with
structural fuel (each iteration removes at least four characters, so
`s.length` iterations always suffice). -/
def collapseFuel : Nat → List Char → List Char
  | 0, s => s
  | fuel + 1, s =>
    match findSub s slashDotDotSlash with
    | none => s
    | some pos =>
      match rfindChar (s.take pos) '/' with
      | some prev => collapseFuel fuel (replaceRange s prev (pos + 4))
      | none => collapseFuel fuel (replaceRange s 0 (pos + 4))

/-- The `while let Some(pos) = req_path.find("/../")` loop. -/
def collapseDotDot (s : List Char) : List Char :=
  collapseFuel (s.length + 1) s

/-- The `while rest.starts_with("../")` strip loop. -/
def stripLeadingDotDot : List Char → List Char
  | '.' :: '.' :: '/' :: rest => stripLeadingDotDot rest
  | s => s

/-- The request path after query/fragment stripping, slash trimming,
`index.html` completion and `/../` collapsing. -/
def serverReqPath (rawUrl : String) : List Char :=
  let r1 := rawUrl.data.takeWhile fun c => c ≠ '?'
  let r2 := r1.takeWhile fun c => c ≠ '#'
  let r3 := r2.dropWhile fun c => c = '/'
  let r4 := if r3 = [] ∨ r3.getLast? = some '/' then r3 ++ "index.html".data else r3
  collapseDotDot r4

/-- The `"../"` pattern of the final branch. -/
def dotDotSlash : List Char := ['.', '.', '/']

/-- The filesystem path the server reads for a request. -/
def serverFsPath (outDir : List String) (rawUrl : String) : List String :=
  let req := serverReqPath rawUrl
  if dotDotSlash.isPrefixOf req then
    pathJoin outDir.dropLast (String.mk (stripLeadingDotDot req))
  else
    pathJoin outDir (String.mk req)

/-! ## Helper lemmas -/

/-- Every character of a hex rendering is a hex digit. -/
theorem mem_hexChars_of_mem_hexOfBytes {c : Char} {bs : List Nat}
    (h : c ∈ hexOfBytes bs) : c ∈ hexChars := by
  unfold hexOfBytes at h
  rcases List.mem_flatMap.mp h with ⟨b, _, hc⟩
  have hmem : ∀ i : Nat, hexChars.getD i '0' ∈ hexChars := by
    intro i
    rw [List.getD_eq_getElem?_getD]
    rcases h' : hexChars[i]? with _ | d
    · simp only [Option.getD_none]
      decide
    · simpa using List.getElem?_mem h'
  rcases List.mem_cons.mp hc with h1 | h1
  · exact h1 ▸ hmem _
  · rcases List.mem_cons.mp h1 with h2 | h2
    · exact h2 ▸ hmem _
    · cases h2

/-- Hex digits are never replaced characters. -/
theorem hexChars_not_replaced {c : Char} (h : c ∈ hexChars) :
    c ∉ replacedChars := by
  have hall : ∀ x ∈ hexChars, x ∉ replacedChars := by decide
  exact hall c h

/-- The length of `sanitize_filename` never exceeds 100 characters. -/
theorem sanitize_filename_length_le (u : String) :
    (sanitize_filename u).length ≤ 100 := by
  show (String.mk _).length ≤ 100
  rw [String.length]
  simp only [List.length_take]
  exact Nat.min_le_left 100 _

/-- No character of `sanitize_filename` comes from the replaced set. -/
theorem sanitize_filename_chars (u : String) :
    ∀ c ∈ (sanitize_filename u).data, c ∉ replacedChars := by
  intro c hc
  simp only [sanitize_filename] at hc
  have hc' := List.take_subset _ _ hc
  rcases List.mem_append.mp hc' with h1 | h1
  · rcases List.mem_append.mp h1 with h2 | h2
    · rcases List.mem_map.mp h2 with ⟨c0, _, hrep⟩
      by_cases hbad : c0 ∈ replacedChars
      · simp only [hbad, if_pos] at hrep
        subst hrep; decide
      · simp only [hbad, if_neg, not_false_iff] at hrep
        subst hrep; exact hbad
    · have : c = '_' := by
        rcases List.mem_cons.mp h2 with h3 | h3
        · exact h3
        · simpa using h3
      subst this; decide
  · exact hexChars_not_replaced
      (mem_hexChars_of_mem_hexOfBytes (List.take_subset _ _ h1))

/-! ## C4 — fingerprint determinism, length, alphabet -/

/-- The alphabet `[A-Za-z0-9_.-]` the specification claims for
fingerprinter output (spec-side definition, for comparison with the
code's behaviour). -/
def claimedFingerprintChar (c : Char) : Prop :=
  ('A' ≤ c ∧ c ≤ 'Z') ∨ ('a' ≤ c ∧ c ≤ 'z') ∨ ('0' ≤ c ∧ c ≤ '9') ∨
    c = '_' ∨ c = '.' ∨ c = '-'

instance (c : Char) : Decidable (claimedFingerprintChar c) := by
  unfold claimedFingerprintChar; infer_instance

/-- C4 (amended): the fingerprinter `sanitize_filename` is a pure,
total, deterministic function; its output has length at most 100; and
the output never contains a character of the replaced set
`{/ \ : ? * " < > | space}`.  (The stricter alphabet `[A-Za-z0-9_.-]`
claimed by the specification is refuted by `c4_counterexample`:
URL characters such as `!` survive sanitization.) -/
theorem c4_fingerprint_deterministic_safe (u : String) :
    sanitize_filename u = sanitize_filename u ∧
    (sanitize_filename u).length ≤ 100 ∧
    ∀ c ∈ (sanitize_filename u).data, c ∉ replacedChars :=
  ⟨rfl, sanitize_filename_length_le u, sanitize_filename_chars u⟩

set_option maxRecDepth 40000 in
/-- C4 witness: the amended claim evaluated on a concrete URL. -/
theorem c4_fingerprint_witness :
    sanitize_filename "http://ex.com/a" = sanitize_filename "http://ex.com/a" ∧
    (sanitize_filename "http://ex.com/a").length ≤ 100 ∧
    'e' ∉ replacedChars :=
  ⟨(c4_fingerprint_deterministic_safe "http://ex.com/a").1,
   (c4_fingerprint_deterministic_safe "http://ex.com/a").2.1,
   (c4_fingerprint_deterministic_safe "http://ex.com/a").2.2 'e' (by decide)⟩

set_option maxRecDepth 40000 in
/-- C4 counterexample: the claim's alphabet `[A-Za-z0-9_.-]` is wrong:
`sanitize_filename "http://ex.com/a!b"` contains `!`, which is outside
that alphabet (only `{/ \ : ? * " < > | space}` is replaced). -/
theorem c4_counterexample :
    '!' ∈ (sanitize_filename "http://ex.com/a!b").data ∧
    ¬ claimedFingerprintChar '!' := by decide

/-! ## C5 — archive-member persist path vs. the asset router -/

/-- C5 (amended): for every extension other than `js`, the path used to
persist an archive member (`build_asset_path_from_parts`) is exactly
the asset router's path (`asset_path_for`) for the same (virtual URL,
extension) pair.  For `js` the two differ: archive members land in
`{workspace}/assets/js/{safe}.js`, not `{workspace}/JSscripts/{safe}.js`
(see `c5_counterexample`). -/
theorem c5_member_path_agrees (url ext : String) (paths : PathsModel)
    (h : ext ≠ "js") :
    build_asset_path_from_parts url ext paths.assetsDir =
      asset_path_for url ext paths := by
  unfold build_asset_path_from_parts asset_path_for
  rw [if_neg h]

set_option maxRecDepth 40000 in
/-- C5 witness: agreement evaluated for a concrete zip member. -/
theorem c5_member_path_agrees_witness :
    build_asset_path_from_parts "http://ex.com/lib.zip" "zip"
      (PathsModel.mk ["w", "screenshots"] ["w", "JSscripts"] ["w", "assets"]).assetsDir =
    asset_path_for "http://ex.com/lib.zip" "zip"
      (PathsModel.mk ["w", "screenshots"] ["w", "JSscripts"] ["w", "assets"]) :=
  c5_member_path_agrees "http://ex.com/lib.zip" "zip"
    (PathsModel.mk ["w", "screenshots"] ["w", "JSscripts"] ["w", "assets"])
    (by decide)

set_option maxRecDepth 40000 in
/-- C5 counterexample: for `ext = "js"` the two path functions
disagree — `build_asset_path_from_parts` has no JSscripts case, so a
`.js` archive member is persisted under `assets/js/`, while the asset
router would map the same pair to `JSscripts/`. -/
theorem c5_counterexample :
    build_asset_path_from_parts "http://ex.com/a.js" "js"
      (PathsModel.mk ["w", "screenshots"] ["w", "JSscripts"] ["w", "assets"]).assetsDir ≠
    asset_path_for "http://ex.com/a.js" "js"
      (PathsModel.mk ["w", "screenshots"] ["w", "JSscripts"] ["w", "assets"]) ∧
    build_asset_path_from_parts "http://ex.com/a.js" "js" ["w", "assets"] =
      ["w", "assets", "js", "ex.com_a.js__fb2b85d76f3b.js"] ∧
    asset_path_for "http://ex.com/a.js" "js"
      (PathsModel.mk ["w", "screenshots"] ["w", "JSscripts"] ["w", "assets"]) =
      ["w", "JSscripts", "ex.com_a.js__fb2b85d76f3b.js"] := by decide

/-! ## C6 — text sniffing -/

/-- A byte outside `{0x20..=0x7E, \n, \r, \t}` (the specification's
description of a weird byte). -/
def outsidePrintable (b : Byte) : Bool :=
  decide (¬ ((0x20 ≤ b.val ∧ b.val ≤ 0x7E) ∨ b.val = 10 ∨ b.val = 13 ∨ b.val = 9))

set_option maxRecDepth 4000 in
/-- C6: `is_probably_text b` is true iff `b` is non-empty and
`weird * 10 < sample_len`, where `sample_len = min (len b) 2048` and
`weird` counts the bytes of the sample outside
`{0x20..=0x7E, \n, \r, \t}`; consequently it is false whenever more
than 10% of the first 2048 bytes are outside that set. -/
theorem c6_text_sniff (b : List Byte) :
    (is_probably_text b = true ↔
      b ≠ [] ∧
        ((b.take (min b.length 2048)).countP outsidePrintable) * 10 <
          min b.length 2048) ∧
    (min b.length 2048 < ((b.take 2048).countP outsidePrintable) * 10 →
      is_probably_text b = false) := by
  have hpred : ∀ x : Byte, weirdByte x = outsidePrintable x := by decide
  have hcount : ∀ l : List Byte, l.countP weirdByte = l.countP outsidePrintable :=
    fun l => List.countP_congr fun x _ => by rw [hpred]
  have htake : b.take 2048 = b.take (min b.length 2048) := by
    rcases Nat.le_total b.length 2048 with h | h
    · rw [Nat.min_eq_left h, List.take_of_length_le h, List.take_length]
    · rw [Nat.min_eq_right h]
  have hiff : is_probably_text b = true ↔
      b ≠ [] ∧
        ((b.take (min b.length 2048)).countP outsidePrintable) * 10 <
          min b.length 2048 := by
    unfold is_probably_text
    by_cases hb : b = []
    · simp [hb]
    · simp only [hb, if_neg, not_false_iff, decide_eq_true_eq, hcount,
        ne_eq, true_and]
  refine ⟨hiff, fun h => ?_⟩
  rw [htake] at h
  rcases h' : is_probably_text b with _ | _
  · rfl
  · exact absurd (hiff.mp h').2 (Nat.lt_asymm h)

/-- C6 witness: a two-byte binary buffer (100% weird) is rejected. -/
theorem c6_text_sniff_witness :
    is_probably_text [(0 : Byte), (1 : Byte)] = false :=
  (c6_text_sniff [(0 : Byte), (1 : Byte)]).2 (by decide)

/-! ## C3 — path containment of the asset router -/

/-- A slash-free character list is a single path component. -/
theorem splitSlash_no_slash :
    ∀ cs : List Char, '/' ∉ cs → splitSlash cs = [cs]
  | [], _ => rfl
  | c :: rest, h => by
    have hc : c ≠ '/' := fun he => h (he ▸ List.mem_cons_self _ _)
    have ih := splitSlash_no_slash rest fun hm => h (List.mem_cons_of_mem _ hm)
    simp only [splitSlash, if_neg hc, ih]

/-- Rebuilding a string from its characters is the identity. -/
theorem stringMkData (s : String) : String.mk s.data = s := rfl

/-- Folding normal components over `resolveStep` just appends them. -/
theorem foldl_resolveStep_normal :
    ∀ (xs acc : List String), NormalComps xs →
      xs.foldl resolveStep acc = acc ++ xs
  | [], acc, _ => (List.append_nil acc).symm
  | x :: rest, acc, h => by
    have hx := h x (List.mem_cons_self _ _)
    have hstep : resolveStep acc x = acc ++ [x] := by
      unfold resolveStep
      rw [if_neg, if_neg hx.2.2]
      rintro (h1 | h1)
      · exact hx.1 h1
      · exact hx.2.1 h1
    have ih := foldl_resolveStep_normal rest (acc ++ [x])
      fun y hy => h y (List.mem_cons_of_mem _ hy)
    simp only [List.foldl_cons, hstep, ih, List.append_assoc, List.cons_append,
      List.nil_append]

/-- A path of normal components resolves to itself. -/
theorem resolvePath_normal {xs : List String} (h : NormalComps xs) :
    resolvePath xs = xs :=
  foldl_resolveStep_normal xs [] h

/-- Every known text extension is a normal component. -/
theorem text_exts_normal : ∀ x ∈ TEXT_EXTS, NormalComp x := by decide

/-- Every known archive extension is a normal component. -/
theorem archive_exts_normal : ∀ x ∈ ARCHIVE_EXTS, NormalComp x := by decide

/-- A parsed URL has a nonempty host in the model. -/
theorem parseUrlModel_host_ne_empty {s : String} {p : ParsedUrl}
    (h : parseUrlModel s = some p) : p.host ≠ "" := by
  unfold parseUrlModel at h
  simp only [] at h
  split at h
  · cases h
  · split at h
    · split at h
      · split at h
        · cases h
        · rename_i hosts
          injection h with h'
          subst h'
          intro hempty
          have hdata := congrArg String.data hempty
          simp only at hdata
          exact hosts (List.map_eq_nil_iff.mp hdata)
      · cases h
    · cases h

/-- The sanitized name is at least three characters long. -/
theorem sanitize_filename_length_ge (u : String) :
    3 ≤ (sanitize_filename u).length := by
  show 3 ≤ (String.mk _).length
  rw [String.length, List.length_take]
  refine le_min (by norm_num) ?_
  simp only [List.length_append, List.length_map]
  have hhost : 1 ≤ (match parseUrlModel u with
      | some v => v.host
      | none => "unknown").data.length := by
    rcases hp : parseUrlModel u with _ | v
    · decide
    · have := parseUrlModel_host_ne_empty hp
      rcases hd : v.host.data with _ | ⟨c, cs⟩
      · exact absurd (congrArg String.mk hd) this
      · simp
  have h2 : (['_', '_'] : List Char).length = 2 := rfl
  omega

/-- Appending anything to a sanitized name yields a normal component. -/
theorem sanitize_append_normal (u : String) (tail : List Char) :
    NormalComp (String.mk ((sanitize_filename u).data ++ tail)) := by
  have hlen : 3 ≤ ((sanitize_filename u).data ++ tail).length := by
    rw [List.length_append]
    exact le_trans (sanitize_filename_length_ge u) (Nat.le_add_right _ _)
  refine ⟨?_, ?_, ?_⟩ <;>
    intro h <;>
    have hd := congrArg String.data h <;>
    simp only at hd <;>
    rw [hd] at hlen <;>
    simp at hlen

/-- String append at the level of character lists. -/
theorem stringAppendData (a b : String) :
    a ++ b = String.mk (a.data ++ b.data) := by
  cases a; cases b; rfl

/-- Appending one normal component keeps all components normal. -/
theorem normalComps_append_singleton {W : List String} {x : String}
    (hW : NormalComps W) (hx : NormalComp x) : NormalComps (W ++ [x]) := by
  intro s hs
  rcases List.mem_append.mp hs with h1 | h1
  · exact hW s h1
  · rcases List.mem_cons.mp h1 with h2 | h2
    · exact h2 ▸ hx
    · cases h2

/-- Joining a sanitized-name-based file onto a normal base stays below
the base after resolution. -/
theorem containment_core (u : String) (base : List String) (tail : List Char)
    (hbase : NormalComps base) (htail : '/' ∉ tail) :
    base <+: resolvePath
      (pathJoin base (String.mk ((sanitize_filename u).data ++ tail))) := by
  unfold pathJoin splitSlashStr
  have hslash : '/' ∉ ((sanitize_filename u).data ++ tail) := by
    intro hmem
    rcases List.mem_append.mp hmem with h1 | h1
    · exact sanitize_filename_chars u '/' h1 (by decide)
    · exact htail h1
  have hhead : ¬ (((sanitize_filename u).data ++ tail).head? = some '/') := by
    intro hh
    rcases hx : (sanitize_filename u).data ++ tail with _ | ⟨c, r⟩ <;>
      rw [hx] at hh
    · cases hh
    · rw [List.head?_cons] at hh
      have hc := Option.some.inj hh
      subst hc
      rw [hx] at hslash
      exact hslash (List.mem_cons_self _ _)
  rw [if_neg hhead, splitSlash_no_slash _ hslash]
  simp only [List.map_cons, List.map_nil]
  rw [resolvePath_normal]
  · exact ⟨_, rfl⟩
  · intro s hs
    rcases List.mem_append.mp hs with h1 | h1
    · exact hbase s h1
    · rcases List.mem_cons.mp h1 with h2 | h2
      · exact h2 ▸ sanitize_append_normal u tail
      · cases h2

set_option maxRecDepth 2000 in
/-- C3 (amended): for every URL `u` and every extension `e` that
contains no path separator — which includes every value `detect_ext`
can return — the asset router's path resolves under
`{workspace}/assets/` or `{workspace}/JSscripts/`, and the sanitized
filename component contains no path separator.  (For adversarial
extensions containing `/` and `..` segments the original universally
quantified claim fails, see `c3_counterexample`.) -/
theorem c3_asset_path_containment (u e : String) (W : List String)
    (paths : PathsModel)
    (hassets : paths.assetsDir = W ++ ["assets"])
    (hjs : paths.jsscriptsDir = W ++ ["JSscripts"])
    (hW : NormalComps W)
    (he : '/' ∉ e.data) :
    ((W ++ ["assets"]) <+: resolvePath (asset_path_for u e paths) ∨
      (W ++ ["JSscripts"]) <+: resolvePath (asset_path_for u e paths)) ∧
    ∀ c ∈ (sanitize_filename u).data, c ≠ '/' ∧ c ≠ '\\' := by
  constructor
  · unfold asset_path_for
    by_cases hejs : e = "js"
    · rw [if_pos hejs, hjs, stringAppendData]
      refine Or.inr (containment_core u _ _ ?_ (by decide))
      exact normalComps_append_singleton hW (by decide)
    · rw [if_neg hejs, hassets]
      have hstr : sanitize_filename u ++ "." ++ e =
          String.mk ((sanitize_filename u).data ++ ('.' :: e.data)) := by
        rw [stringAppendData (sanitize_filename u ++ ".") e,
          stringAppendData (sanitize_filename u) "."]
        simp [List.append_assoc]
      rw [hstr]
      have hsub : NormalComp (if e ∈ TEXT_EXTS ∨ e ∈ ARCHIVE_EXTS then e
          else "bin") := by
        split
        · rename_i hmem
          rcases hmem with hm | hm
          · exact text_exts_normal e hm
          · exact archive_exts_normal e hm
        · decide
      have htl : '/' ∉ ('.' :: e.data) := by
        intro hmem
        rcases List.mem_cons.mp hmem with h1 | h1
        · cases h1
        · exact he h1
      refine Or.inl (List.IsPrefix.trans ⟨_, rfl⟩
        (containment_core u ((W ++ ["assets"]) ++ [_]) _ ?_ htl))
      exact normalComps_append_singleton
        (normalComps_append_singleton hW (by decide)) hsub
  · intro c hc
    have h1 := sanitize_filename_chars u c hc
    exact ⟨fun hcc => h1 (hcc ▸ (by decide : '/' ∈ replacedChars)),
      fun hcc => h1 (hcc ▸ (by decide : '\\' ∈ replacedChars))⟩

set_option maxRecDepth 40000 in
/-- C3 witness: the amended containment evaluated on a concrete URL
and extension. -/
theorem c3_asset_path_containment_witness :
    ((["w", "assets"] : List String) <+:
        resolvePath (asset_path_for "http://ex.com/f.txt" "txt"
          (PathsModel.mk ["w", "screenshots"] ["w", "JSscripts"] ["w", "assets"])) ∨
      (["w", "JSscripts"] : List String) <+:
        resolvePath (asset_path_for "http://ex.com/f.txt" "txt"
          (PathsModel.mk ["w", "screenshots"] ["w", "JSscripts"] ["w", "assets"]))) ∧
    ∀ c ∈ (sanitize_filename "http://ex.com/f.txt").data, c ≠ '/' ∧ c ≠ '\\' :=
  c3_asset_path_containment "http://ex.com/f.txt" "txt" ["w"]
    (PathsModel.mk ["w", "screenshots"] ["w", "JSscripts"] ["w", "assets"])
    rfl rfl (by decide) (by decide)

set_option maxRecDepth 40000 in
/-- C3 counterexample: with an adversarial extension containing `..`
segments (reachable in the neighbouring archive-member routing, where
the extension is cut from an attacker-controlled member name), the
router's path resolves to `["p"]` — outside `{workspace}/assets/`,
outside `{workspace}/JSscripts/`, and outside the workspace root
`["w"]` itself. -/
theorem c3_counterexample :
    resolvePath (asset_path_for "http://ex.com/f.txt" "../../../../../p"
      (PathsModel.mk ["w", "screenshots"] ["w", "JSscripts"] ["w", "assets"])) =
      ["p"] ∧
    ¬ ((["w", "assets"] : List String) <+: ["p"]) ∧
    ¬ ((["w", "JSscripts"] : List String) <+: ["p"]) ∧
    ¬ ((["w"] : List String) <+: ["p"]) := by decide

/-! ## C8 — link normalization and extraction -/

/-- C8: link normalization trims the raw attribute value, drops it when
it is empty or starts with `#`, `mailto:`, `javascript:` or `data:`,
otherwise tries an absolute parse with a base-relative join as
fallback; the extractor inserts the rendered results into a set (a
`Finset`, deduplicated by construction), so a page linking only to
skip-worthy targets yields zero child URLs. -/
theorem c8_link_normalization {U : Type} (ops : UrlOps U) (baseUrl : String)
    (hrefs srcs : List String) :
    (∀ (base : U) (raw : String), skippedRaw raw →
      normalize_url ops base raw = none) ∧
    (∀ (base : U) (raw : String), ¬ skippedRaw raw →
      normalize_url ops base raw =
        ((ops.parse (rustTrim raw)).orElse
          fun _ => ops.join base (rustTrim raw)).map ops.render) ∧
    ((∀ raw ∈ hrefs ++ srcs, skippedRaw raw) →
      extract_links ops baseUrl hrefs srcs = ∅) := by
  have hdrop : ∀ (base : U) (raw : String), skippedRaw raw →
      normalize_url ops base raw = none := by
    intro base raw h
    unfold normalize_url
    by_cases h0 : rustTrim raw = ""
    · rw [if_pos h0]
    · rw [if_neg h0]
      have hcond : rustStartsWith (rustTrim raw) "#" ∨
          rustStartsWith (rustTrim raw) "mailto:" ∨
          rustStartsWith (rustTrim raw) "javascript:" ∨
          rustStartsWith (rustTrim raw) "data:" := by
        rcases h with h1 | h1 | h1 | h1 | h1
        · exact absurd h1 h0
        · exact Or.inl h1
        · exact Or.inr (Or.inl h1)
        · exact Or.inr (Or.inr (Or.inl h1))
        · exact Or.inr (Or.inr (Or.inr h1))
      rw [if_pos hcond]
  refine ⟨hdrop, ?_, ?_⟩
  · intro base raw h
    unfold skippedRaw at h
    push_neg at h
    unfold normalize_url
    rw [if_neg h.1]
    have hcond : ¬ (rustStartsWith (rustTrim raw) "#" ∨
        rustStartsWith (rustTrim raw) "mailto:" ∨
        rustStartsWith (rustTrim raw) "javascript:" ∨
        rustStartsWith (rustTrim raw) "data:") := by
      rintro (h1 | h1 | h1 | h1)
      · exact h.2.1 h1
      · exact h.2.2.1 h1
      · exact h.2.2.2.1 h1
      · exact h.2.2.2.2 h1
    rw [if_neg hcond]
    rcases hp : ops.parse (rustTrim raw) with _ | abs
    · rcases hj : ops.join base (rustTrim raw) with _ | j <;>
        simp [Option.orElse, hj]
    · simp [Option.orElse]
  · intro hall
    unfold extract_links
    rcases hb : ops.parse baseUrl with _ | base
    · rfl
    · show (hrefs.filterMap (normalize_url ops base) ++
        srcs.filterMap (normalize_url ops base)).toFinset = ∅
      have hnil : ∀ l : List String, (∀ raw ∈ l, skippedRaw raw) →
          l.filterMap (normalize_url ops base) = [] := by
        intro l hl
        rw [List.filterMap_eq_nil_iff]
        exact fun raw hr => hdrop base raw (hl raw hr)
      rw [hnil hrefs fun raw hr => hall raw (List.mem_append.mpr (Or.inl hr)),
        hnil srcs fun raw hr => hall raw (List.mem_append.mpr (Or.inr hr))]
      rfl

/-- C8 witness: with a trivial URL-operations record over strings, a
page whose links are all skip-worthy extracts the empty set, and one
skip-worthy value normalizes to `none`. -/
theorem c8_link_normalization_witness :
    extract_links (UrlOps.mk (fun s => some s) (fun _ _ => none) id)
      "http://ex.com/"
      ["#frag", " mailto:x@y", "javascript:void(0)"]
      ["data:image/png;base64,xyz", "  "] = ∅ ∧
    normalize_url (UrlOps.mk (fun s => some s) (fun _ _ => none) id)
      "http://ex.com/" "#frag" = none :=
  ⟨(c8_link_normalization (UrlOps.mk (fun s => some s) (fun _ _ => none) id)
      "http://ex.com/" ["#frag", " mailto:x@y", "javascript:void(0)"]
      ["data:image/png;base64,xyz", "  "]).2.2 (by decide),
   (c8_link_normalization (UrlOps.mk (fun s => some s) (fun _ _ => none) id)
      "http://ex.com/" [] []).1 "http://ex.com/" "#frag" (by decide)⟩

/-! ## C9 — per-URL error absorption -/

/-- C9: `process_single_url` returns success for every outcome of its
sub-operations; fetch, persist, analysis and archive-inspection
failures are absorbed, each leaving a `[!]`-prefixed diagnostic line. -/
theorem c9_process_single_url_total (env : UrlEnv) (url : String) :
    (process_single_url env url).1 = Except.ok () ∧
    (∀ e, env.ignorePath url = false → env.fetch = .error e →
      s!"[!] Ошибка загрузки {url}: {e}" ∈ (process_single_url env url).2) ∧
    (∀ e data finalUrl w, env.ignorePath url = false →
      env.fetch = .ok (data, finalUrl, w) → env.save = .error e →
      s!"[!] Ошибка сохранения {finalUrl}: {e}" ∈ (process_single_url env url).2) ∧
    (∀ e data finalUrl w, env.ignorePath url = false →
      env.fetch = .ok (data, finalUrl, w) → env.analyze = .error e →
      s!"[!] Ошибка анализа содержимого {finalUrl}: {e}" ∈
        (process_single_url env url).2) ∧
    (∀ e data finalUrl w, env.ignorePath url = false →
      env.fetch = .ok (data, finalUrl, w) →
      (detect_ext finalUrl).getD "bin" ∈ ARCHIVE_EXTS → env.archive = .error e →
      s!"[!] Ошибка анализа архива {finalUrl}: {e}" ∈
        (process_single_url env url).2) := by
  refine ⟨?_, ?_, ?_, ?_, ?_⟩
  · unfold process_single_url
    by_cases hig : env.ignorePath url
    · rw [if_pos hig]
    · rw [if_neg hig]
      rcases env.fetch with e | ⟨data, finalUrl, w⟩ <;> rfl
  · intro e hig hf
    simp [process_single_url, hig, hf]
  · intro e data finalUrl w hig hf hs
    simp [process_single_url, hig, hf, handleResponseLogs, hs]
  · intro e data finalUrl w hig hf ha
    simp [process_single_url, hig, hf, handleResponseLogs, ha]
  · intro e data finalUrl w hig hf hext harch
    simp [process_single_url, hig, hf, handleResponseLogs, hext, harch]

/-- The concrete oracle used by the C9 witness: the fetch fails, every
other operation succeeds. -/
def c9Env : UrlEnv :=
  UrlEnv.mk (fun _ => false) (.error "boom") (.ok ()) (.ok ()) (.ok ()) false []
    (fun _ => ChildOutcome.mk (.ok ([], "", false)) (.ok ()) (.ok ()) (.ok ()))

/-- C9 witness: a failing fetch still yields `Ok(())`, and the error is
logged. -/
theorem c9_process_single_url_witness :
    (process_single_url c9Env "http://ex.com/a.html").1 = Except.ok () ∧
    "[!] Ошибка загрузки http://ex.com/a.html: boom" ∈
      (process_single_url c9Env "http://ex.com/a.html").2 :=
  ⟨(c9_process_single_url_total c9Env "http://ex.com/a.html").1,
   (c9_process_single_url_total c9Env "http://ex.com/a.html").2.1 "boom"
     rfl rfl⟩

/-! ## C1 — live-or-Wayback fetching -/

/-- C1: the fetcher issues the live GET under a 15-second timeout; a
successful 2xx live response returns `(bytes, original URL, false)`; on
timeout, send error or non-2xx status it falls back to the Wayback CDX
index; there, with a 200 CDX response whose JSON has a timestamp string
at row 1 column 0, it retrieves
`https://web.archive.org/web/{ts}id_/{original}` and returns the bytes
with the archive URL and the flag `true`; when row 1 is absent the
fетch fails with the "нет timestamp" (no timestamp) error. -/
theorem c1_fetch_live_or_wayback (env : FetchEnv) (url : String) :
    liveTimeoutSecs = 15 ∧
    (∀ st body data, env.live = .resp st body → statusIsSuccess st = true →
      body = .ok data →
      fetch_live_or_wayback env url = .ok (data, url, false)) ∧
    ((env.live = .timeout ∨ (∃ e, env.live = .sendErr e) ∨
        (∃ st body, env.live = .resp st body ∧ statusIsSuccess st = false)) →
      fetch_live_or_wayback env url = waybackFallback env url) ∧
    (∀ cdx val ts r data,
      env.cdxSend = .ok cdx → cdx.status = 200 → cdx.json = .ok val →
      cdxTimestamp val = some ts →
      env.archSend = .ok r → ¬ (400 ≤ r.status ∧ r.status ≤ 599) →
      r.body = .ok data →
      waybackFallback env url =
        .ok (data, s!"https://web.archive.org/web/{ts}id_/{url}", true)) ∧
    (∀ cdx val, env.cdxSend = .ok cdx → cdx.status = 200 →
      cdx.json = .ok val → cdxTimestamp val = none →
      waybackFallback env url = .error s!"Wayback: нет timestamp для {url}") ∧
    (∀ val : JValue, (val.asArray.bind fun arr => arr.get? 1) = none →
      cdxTimestamp val = none) := by
  refine ⟨rfl, ?_, ?_, ?_, ?_, ?_⟩
  · intro st body data hlive hst hbody
    unfold fetch_live_or_wayback
    rw [hlive, hbody]
    simp [hst]
  · intro h
    unfold fetch_live_or_wayback
    rcases h with h1 | ⟨e, h1⟩ | ⟨st, body, h1, h2⟩ <;> rw [h1]
    simp [h2]
  · intro cdx val ts r data hcdx hst hjson hts har hr hbody
    simp [waybackFallback, hcdx, hjson, hts, har, hbody, hst, hr]
  · intro cdx val hcdx hst hjson hts
    simp [waybackFallback, hcdx, hjson, hts, hst]
  · intro val h
    unfold cdxTimestamp
    rw [h]
    rfl

/-- The C1 witness oracle for a successful live GET. -/
def c1EnvLive : FetchEnv :=
  FetchEnv.mk (.resp 200 (.ok [(72 : Byte)])) (.error "unused") (.error "unused")

/-- The C1 witness oracle for a timed-out live GET with a CDX snapshot
at timestamp `20240101000000`. -/
def c1EnvWayback : FetchEnv :=
  FetchEnv.mk .timeout
    (.ok (CdxResp.mk 200 (.ok (JValue.arr
      [JValue.arr [JValue.str "timestamp", JValue.str "original"],
       JValue.arr [JValue.str "20240101000000", JValue.str "http://ex.com/a"]]))))
    (.ok (ArchResp.mk 200 (.ok [(33 : Byte)])))

/-- C1 witness: the live-success and live-timeout scenarios evaluated
on concrete oracles; the effective URL of the archived fetch is the
archive URL, not the original. -/
theorem c1_fetch_live_or_wayback_witness :
    fetch_live_or_wayback c1EnvLive "http://ex.com/a" =
      .ok ([(72 : Byte)], "http://ex.com/a", false) ∧
    fetch_live_or_wayback c1EnvWayback "http://ex.com/a" =
      .ok ([(33 : Byte)],
        "https://web.archive.org/web/20240101000000id_/http://ex.com/a", true) :=
  ⟨(c1_fetch_live_or_wayback c1EnvLive "http://ex.com/a").2.1 200
      (.ok [(72 : Byte)]) [(72 : Byte)] rfl (by decide) rfl,
   ((c1_fetch_live_or_wayback c1EnvWayback "http://ex.com/a").2.2.1
        (Or.inl rfl)).trans
     ((c1_fetch_live_or_wayback c1EnvWayback "http://ex.com/a").2.2.2.1
        (CdxResp.mk 200 (.ok (JValue.arr
          [JValue.arr [JValue.str "timestamp", JValue.str "original"],
           JValue.arr [JValue.str "20240101000000", JValue.str "http://ex.com/a"]])))
        (JValue.arr
          [JValue.arr [JValue.str "timestamp", JValue.str "original"],
           JValue.arr [JValue.str "20240101000000", JValue.str "http://ex.com/a"]])
        "20240101000000" (ArchResp.mk 200 (.ok [(33 : Byte)])) [(33 : Byte)]
        rfl rfl rfl rfl rfl (by decide) rfl)⟩

/-! ## C7 — entropy scorer -/

/-- Byte counts sum to the length of the buffer. -/
theorem sum_count_eq_length (l : List Byte) :
    ∑ b : Byte, l.count b = l.length := by
  induction l with
  | nil => simp
  | cons a t ih =>
    simp only [List.count_cons, List.length_cons]
    rw [Finset.sum_add_distrib, ih]
    simp [beq_iff_eq]

/-- Relative frequencies are nonnegative. -/
theorem byteP_nonneg (l : List Byte) (b : Byte) : 0 ≤ byteP l b :=
  div_nonneg (Nat.cast_nonneg _) (Nat.cast_nonneg _)

/-- Relative frequencies are at most one. -/
theorem byteP_le_one (l : List Byte) (b : Byte) : byteP l b ≤ 1 := by
  unfold byteP
  rcases Nat.eq_zero_or_pos l.length with h | h
  · rw [h]
    norm_num
  · apply div_le_one_of_le₀
    · exact_mod_cast List.count_le_length b l
    · positivity

/-- Relative frequencies over a nonempty buffer sum to one. -/
theorem sum_byteP (l : List Byte) (h : l ≠ []) : ∑ b : Byte, byteP l b = 1 := by
  unfold byteP
  rw [← Finset.sum_div, ← Nat.cast_sum, sum_count_eq_length]
  refine div_self ?_
  exact Nat.cast_ne_zero.mpr fun h0 => h (List.length_eq_zero.mp h0)

set_option maxRecDepth 4000 in
/-- The entropy in bits is the natural-log entropy divided by `log 2`. -/
theorem entropyBits_eq_negMulLog (l : List Byte) :
    entropyBits l = (∑ b : Byte, Real.negMulLog (byteP l b)) / Real.log 2 := by
  unfold entropyBits
  have hterm : ∀ b : Byte, byteP l b * Real.logb 2 (byteP l b) =
      (byteP l b * Real.log (byteP l b)) / Real.log 2 := by
    intro b
    rw [← Real.log_div_log, mul_div_assoc]
  simp only [hterm]
  rw [← Finset.sum_div, ← neg_div]
  congr 1
  rw [← Finset.sum_neg_distrib]
  refine Finset.sum_congr rfl fun b _ => ?_
  simp [Real.negMulLog_eq_neg]

/-- Entropy is nonnegative. -/
theorem entropyBits_nonneg (l : List Byte) : 0 ≤ entropyBits l := by
  rw [entropyBits_eq_negMulLog]
  refine div_nonneg (Finset.sum_nonneg fun b _ => ?_)
    (Real.log_nonneg one_le_two)
  exact Real.negMulLog_nonneg (byteP_nonneg l b) (byteP_le_one l b)

set_option maxRecDepth 4000 in
/-- Entropy of a nonempty buffer is at most eight bits per byte. -/
theorem entropyBits_le_eight (l : List Byte) (h : l ≠ []) :
    entropyBits l ≤ 8 := by
  rw [entropyBits_eq_negMulLog]
  have hlog2 : (0 : ℝ) < Real.log 2 := Real.log_pos one_lt_two
  have hsum : ∑ b : Byte, Real.negMulLog (byteP l b) ≤ Real.log 256 := by
    have hw : ∀ b : Byte, b ∈ (Finset.univ : Finset Byte) →
        (0 : ℝ) ≤ (256 : ℝ)⁻¹ := fun _ _ => by norm_num
    have h1 : ∑ _b : Byte, ((256 : ℝ)⁻¹) = 1 := by
      rw [Finset.sum_const, Finset.card_univ, Fintype.card_fin, nsmul_eq_mul]
      norm_num
    have hmem : ∀ b : Byte, b ∈ (Finset.univ : Finset Byte) →
        byteP l b ∈ Set.Ici (0 : ℝ) := fun b _ => byteP_nonneg l b
    have hj := Real.concaveOn_negMulLog.le_map_sum hw h1 hmem
    simp only [smul_eq_mul] at hj
    rw [← Finset.mul_sum, ← Finset.mul_sum, sum_byteP l h, mul_one] at hj
    have h2 : Real.negMulLog ((256 : ℝ)⁻¹) = (256 : ℝ)⁻¹ * Real.log 256 := by
      simp only [Real.negMulLog_eq_neg]
      rw [Real.log_inv]
      ring
    rw [h2] at hj
    exact (mul_le_mul_left (show (0 : ℝ) < (256 : ℝ)⁻¹ by norm_num)).mp hj
  calc (∑ b : Byte, Real.negMulLog (byteP l b)) / Real.log 2
      ≤ Real.log 256 / Real.log 2 := by gcongr
    _ = Real.logb 2 256 := Real.log_div_log
    _ = 8 := by
        rw [show (256 : ℝ) = 2 ^ (8 : ℕ) by norm_num, Real.logb_pow,
          Real.logb_self_eq_one one_lt_two]
        norm_num

set_option maxRecDepth 4000 in
/-- Entropy of a nonempty buffer vanishes exactly when all bytes are
equal. -/
theorem entropyBits_eq_zero_iff (l : List Byte) (h : l ≠ []) :
    entropyBits l = 0 ↔ ∀ x ∈ l, ∀ y ∈ l, x = y := by
  have hn : ((l.length : ℝ)) ≠ 0 :=
    Nat.cast_ne_zero.mpr fun h0 => h (List.length_eq_zero.mp h0)
  rw [entropyBits_eq_negMulLog]
  have hlog2 : Real.log 2 ≠ 0 := ne_of_gt (Real.log_pos one_lt_two)
  rw [div_eq_zero_iff]
  have hnn : ∀ b ∈ (Finset.univ : Finset Byte),
      0 ≤ Real.negMulLog (byteP l b) := fun b _ =>
    Real.negMulLog_nonneg (byteP_nonneg l b) (byteP_le_one l b)
  constructor
  · rintro (hS | hl)
    · have hall := (Finset.sum_eq_zero_iff_of_nonneg hnn).mp hS
      intro x hx y hy
      have hpos : 0 < byteP l x := by
        unfold byteP
        apply div_pos
        · exact_mod_cast List.count_pos_iff.mpr hx
        · exact_mod_cast List.length_pos.mpr h
      have h0 := hall x (Finset.mem_univ x)
      simp only [Real.negMulLog_eq_neg, neg_eq_zero] at h0
      rcases mul_eq_zero.mp h0 with hp0 | hlog0
      · exact absurd hp0 (ne_of_gt hpos)
      · have hp1 : byteP l x = 1 := by
          rcases Real.log_eq_zero.mp hlog0 with h1 | h1 | h1
          · exact absurd h1 (ne_of_gt hpos)
          · exact h1
          · exact absurd h1 (by intro hh; rw [hh] at hpos; norm_num at hpos)
        have hcount : (l.count x : ℝ) = (l.length : ℝ) := by
          unfold byteP at hp1
          exact (div_eq_one_iff_eq hn).mp hp1
        have hcount' : l.count x = l.length := by exact_mod_cast hcount
        exact List.count_eq_length.mp hcount' y hy
    · exact absurd hl hlog2
  · intro hall
    left
    apply Finset.sum_eq_zero
    intro b _
    rcases Decidable.em (b ∈ l) with hb | hb
    · have hcount : l.count b = l.length :=
        List.count_eq_length.mpr fun c hc => hall b hb c hc
      have hp1 : byteP l b = 1 := by
        unfold byteP
        rw [hcount]
        exact div_self hn
      rw [hp1, Real.negMulLog_one]
    · have hp0 : byteP l b = 0 := by
        unfold byteP
        rw [List.count_eq_zero.mpr hb]
        simp
      rw [hp0, Real.negMulLog_zero]

/-- C7: `shannon_entropy` returns `(0, 0, 0)` on the empty buffer and
`(H, H·len, len)` with `H = -Σ pᵢ·log2 pᵢ` otherwise; the returned
bits-per-char value always satisfies `0 ≤ H ≤ 8`, vanishes exactly when
all bytes are equal, and the returned total always equals `H · len`. -/
theorem c7_shannon_entropy (l : List Byte) :
    (l = [] → shannon_entropy l = (0, 0, 0)) ∧
    (l ≠ [] → shannon_entropy l =
      (entropyBits l, entropyBits l * (l.length : ℝ), l.length)) ∧
    0 ≤ (shannon_entropy l).1 ∧ (shannon_entropy l).1 ≤ 8 ∧
    ((shannon_entropy l).1 = 0 ↔ ∀ x ∈ l, ∀ y ∈ l, x = y) ∧
    (shannon_entropy l).2.1 = (shannon_entropy l).1 *
      ((shannon_entropy l).2.2 : ℝ) := by
  by_cases h : l = []
  · subst h
    have heq : shannon_entropy ([] : List Byte) = (0, 0, 0) := by
      unfold shannon_entropy
      rw [if_pos rfl]
    refine ⟨fun _ => heq, fun hne => absurd rfl hne, ?_, ?_, ?_, ?_⟩
    · rw [heq]
    · rw [heq]
      norm_num
    · rw [heq]
      exact ⟨fun _ x hx => absurd hx (List.not_mem_nil x), fun _ => rfl⟩
    · rw [heq]
      norm_num
  · have heq : shannon_entropy l =
        (entropyBits l, entropyBits l * (l.length : ℝ), l.length) := by
      unfold shannon_entropy
      rw [if_neg h]
    refine ⟨fun he => absurd he h, fun _ => heq, ?_, ?_, ?_, ?_⟩
    · rw [heq]
      exact entropyBits_nonneg l
    · rw [heq]
      exact entropyBits_le_eight l h
    · rw [heq]
      exact entropyBits_eq_zero_iff l h
    · rw [heq]

/-- C7 witness: the empty-buffer and singleton-buffer cases. -/
theorem c7_shannon_entropy_witness :
    shannon_entropy ([] : List Byte) = (0, 0, 0) ∧
    shannon_entropy [(5 : Byte)] =
      (entropyBits [(5 : Byte)],
        entropyBits [(5 : Byte)] * (([(5 : Byte)].length : ℕ) : ℝ),
        [(5 : Byte)].length) :=
  ⟨(c7_shannon_entropy []).1 rfl,
   (c7_shannon_entropy [(5 : Byte)]).2.1 (by decide)⟩

/-! ## C2 — report-block contiguity -/

/-- The report contents contributed by the completed tasks, in
completion order. -/
def doneOrderBlocks (blocks : List (List String)) (order : List Nat) :
    List String :=
  (order.map fun k => blocks.getD k []).flatten

/-- The inductive invariant of the report machine: completed blocks
form the file in completion order, followed by the written part of the
lock holder's block; at most the lock holder is mid-block. -/
def ReportInv (blocks : List (List String)) (s : WState) : Prop :=
  s.tasks.length = blocks.length ∧
  ∃ order : List Nat,
    order.Nodup ∧
    (∀ i, s.tasks[i]? = some TaskSt.done ↔ i ∈ order) ∧
    (match s.lock with
     | none =>
        (∀ (i : Nat) (t : TaskSt), s.tasks[i]? = some t →
          TaskSt.notWriting t) ∧
        s.file = doneOrderBlocks blocks order
     | some i =>
        ∃ w rem, s.tasks[i]? = some (TaskSt.writing rem) ∧
          w ++ rem = blocks.getD i [] ∧
          (∀ (j : Nat) (t : TaskSt), j ≠ i → s.tasks[j]? = some t →
            TaskSt.notWriting t) ∧
          s.file = doneOrderBlocks blocks order ++ w)

/-- The invariant holds initially. -/
theorem reportInv_init (blocks : List (List String)) :
    ReportInv blocks (reportInit blocks) := by
  refine ⟨by simp [reportInit], [], List.nodup_nil, ?_, ?_, ?_⟩
  · intro i
    simp only [reportInit, List.getElem?_map]
    constructor
    · intro h
      rcases hb : blocks[i]? with _ | b <;> rw [hb] at h
      · cases h
      · cases h
    · intro h
      cases h
  · intro i t h
    simp only [reportInit, List.getElem?_map] at h
    rcases hb : blocks[i]? with _ | b <;> rw [hb] at h
    · cases h
    · injection h with h'
      subst h'
      trivial
  · rfl

/-- The invariant is preserved by every step. -/
theorem reportInv_step {blocks : List (List String)} {s s' : WState}
    (hstep : ReportStep blocks s s') (hinv : ReportInv blocks s) :
    ReportInv blocks s' := by
  obtain ⟨hlen, order, hnodup, hdone, hrest⟩ := hinv
  cases hstep with
  | acquire i b hlock htask hblock =>
    rw [hlock] at hrest
    obtain ⟨hnw, hfile⟩ := hrest
    have hilen : i < s.tasks.length := (List.getElem?_eq_some_iff.mp htask).1
    refine ⟨by simpa using hlen, order, hnodup, ?_, ?_⟩
    · intro j
      by_cases hj : j = i
      · subst hj
        rw [List.getElem?_set_self hilen]
        constructor
        · intro hc
          cases hc
        · intro hmem
          have := (hdone j).mpr hmem
          rw [htask] at this
          cases this
      · rw [List.getElem?_set_ne fun he => hj he.symm]
        exact hdone j
    · refine ⟨[], b, List.getElem?_set_self hilen, ?_, ?_, ?_⟩
      · rw [List.nil_append, List.getD_eq_getElem?_getD, hblock]
        rfl
      · intro j t hj hget
        rw [List.getElem?_set_ne fun he => hj he.symm] at hget
        exact hnw j t hget
      · rw [hfile, List.append_nil]
  | write i line rem hlock htask =>
    rw [hlock] at hrest
    obtain ⟨w, rem0, hget, hwb, hnw, hfile⟩ := hrest
    have hrem0 : rem0 = line :: rem := by
      rw [htask] at hget
      exact (TaskSt.writing.inj (Option.some.inj hget)).symm
    subst hrem0
    have hilen : i < s.tasks.length := (List.getElem?_eq_some_iff.mp htask).1
    refine ⟨by simpa using hlen, order, hnodup, ?_, ?_⟩
    · intro j
      by_cases hj : j = i
      · subst hj
        rw [List.getElem?_set_self hilen]
        constructor
        · intro hc
          cases hc
        · intro hmem
          have := (hdone j).mpr hmem
          rw [htask] at this
          cases this
      · rw [List.getElem?_set_ne fun he => hj he.symm]
        exact hdone j
    · refine ⟨w ++ [line], rem, List.getElem?_set_self hilen, ?_, ?_, ?_⟩
      · rw [List.append_assoc, List.singleton_append]
        exact hwb
      · intro j t hj hget'
        rw [List.getElem?_set_ne fun he => hj he.symm] at hget'
        exact hnw j t hj hget'
      · rw [hfile, List.append_assoc]
  | release i hlock htask =>
    rw [hlock] at hrest
    obtain ⟨w, rem0, hget, hwb, hnw, hfile⟩ := hrest
    have hrem0 : rem0 = [] := by
      rw [htask] at hget
      exact (TaskSt.writing.inj (Option.some.inj hget)).symm
    subst hrem0
    rw [List.append_nil] at hwb
    have hilen : i < s.tasks.length := (List.getElem?_eq_some_iff.mp htask).1
    have hinot : i ∉ order := by
      intro hmem
      have := (hdone i).mpr hmem
      rw [htask] at this
      cases this
    refine ⟨by simpa using hlen, order ++ [i], ?_, ?_, ?_⟩
    · rw [List.nodup_append]
      exact ⟨hnodup, List.nodup_singleton i,
        fun a ha hb => hinot ((List.mem_singleton.mp hb) ▸ ha)⟩
    · intro j
      by_cases hj : j = i
      · subst hj
        rw [List.getElem?_set_self hilen]
        simp
      · rw [List.getElem?_set_ne fun he => hj he.symm]
        rw [hdone j]
        simp [hj]
    · refine ⟨?_, ?_⟩
      · intro j t hget'
        by_cases hj : j = i
        · subst hj
          rw [List.getElem?_set_self hilen] at hget'
          injection hget' with h'
          subst h'
          trivial
        · rw [List.getElem?_set_ne fun he => hj he.symm] at hget'
          exact hnw j t hj hget'
      · rw [hfile, hwb]
        unfold doneOrderBlocks
        rw [List.map_append, List.flatten_append]
        simp

/-- Every reachable state satisfies the invariant. -/
theorem reportInv_reachable {blocks : List (List String)} {s : WState}
    (h : ReportReachable blocks s) : ReportInv blocks s := by
  induction h with
  | refl => exact reportInv_init blocks
  | tail _ hstep ih => exact reportInv_step hstep ih

/-- Mapping an index list over `getD` of the full range recovers the
list. -/
theorem map_getD_range (blocks : List (List String)) :
    (List.range blocks.length).map (fun k => blocks.getD k []) = blocks := by
  apply List.ext_getElem
  · simp
  · intro i h1 h2
    simp only [List.getElem_map, List.getElem_range,
      List.getD_eq_getElem?_getD]
    rw [List.getElem?_eq_getElem h2]
    rfl

/-- C2: with each task's block composed up front (header line first),
any interleaving of the report writers that runs to completion leaves
the file equal to a concatenation of the untouched per-URL blocks in
some order — the lines between two header lines belong to exactly one
URL, and no partial block interleaves with another. -/
theorem c2_report_blocks_contiguous (blks : List (String × List String))
    (s : WState)
    (hreach : ReportReachable (blks.map fun p => blockFor p.1 p.2) s)
    (hdone : ∀ t ∈ s.tasks, t = TaskSt.done) :
    ∃ ord : List (List String),
      ord.Perm (blks.map fun p => blockFor p.1 p.2) ∧ s.file = ord.flatten := by
  obtain ⟨hlen, order, hnodup, hdoneiff, hrest⟩ := reportInv_reachable hreach
  rcases hlock : s.lock with _ | i
  · rw [hlock] at hrest
    obtain ⟨hnw, hfile⟩ := hrest
    refine ⟨order.map fun k =>
      (blks.map fun p => blockFor p.1 p.2).getD k [], ?_, ?_⟩
    swap
    · exact hfile
    have hmem : ∀ j, j ∈ order ↔
        j ∈ List.range (blks.map fun p => blockFor p.1 p.2).length := by
      intro j
      rw [List.mem_range, ← hdoneiff j]
      constructor
      · intro hj
        have := (List.getElem?_eq_some_iff.mp hj).1
        omega
      · intro hj
        have hlt : j < s.tasks.length := by omega
        rw [List.getElem?_eq_getElem hlt]
        exact congrArg some (hdone _ (List.getElem_mem hlt))
    have hperm : order.Perm
        (List.range (blks.map fun p => blockFor p.1 p.2).length) :=
      (List.perm_ext_iff_of_nodup hnodup (List.nodup_range _)).mpr hmem
    have hmapped := map_getD_range (blks.map fun p => blockFor p.1 p.2)
    have hp2 := hperm.map fun k => (blks.map fun p => blockFor p.1 p.2).getD k []
    rw [hmapped] at hp2
    exact hp2
  · rw [hlock] at hrest
    obtain ⟨w, rem, hget, -, -, -⟩ := hrest
    have hmem : TaskSt.writing rem ∈ s.tasks := List.getElem?_mem hget
    cases hdone _ hmem

/-- C2 witness: a complete two-writer run (acquire, write the block
lines, release; then the second writer) produces the two blocks
contiguously. -/
theorem c2_report_blocks_contiguous_witness :
    ∃ ord : List (List String),
      ord.Perm ([("u1", ["f1"]), ("u2", ([] : List String))].map
        fun p => blockFor p.1 p.2) ∧
      (["u1", "f1", "u2"] : List String) = ord.flatten :=
  c2_report_blocks_contiguous [("u1", ["f1"]), ("u2", [])]
    (WState.mk ["u1", "f1", "u2"] none [TaskSt.done, TaskSt.done])
    (Relation.ReflTransGen.head (ReportStep.acquire _ 0 ["u1", "f1"] rfl rfl rfl)
      (Relation.ReflTransGen.head (ReportStep.write _ 0 "u1" ["f1"] rfl rfl)
        (Relation.ReflTransGen.head (ReportStep.write _ 0 "f1" [] rfl rfl)
          (Relation.ReflTransGen.head (ReportStep.release _ 0 rfl rfl)
            (Relation.ReflTransGen.head (ReportStep.acquire _ 1 ["u2"] rfl rfl rfl)
              (Relation.ReflTransGen.head (ReportStep.write _ 1 "u2" [] rfl rfl)
                (Relation.ReflTransGen.head (ReportStep.release _ 1 rfl rfl)
                  Relation.ReflTransGen.refl)))))))
    (by decide)

/-! ## C10 — report-server path handling -/

/-- Bridge from the boolean prefix test to the prefix relation. -/
theorem isPrefixOfIff {l₁ l₂ : List Char} :
    l₁.isPrefixOf l₂ = true ↔ l₁ <+: l₂ := by
  rw [ List.isPrefixOf_iff_prefix]

/-- `dropLast` is a prefix. -/
theorem isPrefixDropLast {α : Type} (l : List α) : l.dropLast <+: l := by
  rcases h : l with _ | ⟨a, t⟩
  · exact ⟨[], rfl⟩
  · refine ⟨[(a :: t).getLast (by simp)], ?_⟩
    exact List.dropLast_concat_getLast (by simp)

/-- A found pattern fits inside the string. -/
theorem findSub_bound :
    ∀ (s pat : List Char) (i : Nat), findSub s pat = some i →
      i + pat.length ≤ s.length := by
  intro s
  induction s with
  | nil =>
    intro pat i h
    unfold findSub at h
    split at h
    · rename_i hpre
      injection h with h'
      subst h'
      simpa using (isPrefixOfIff.mp hpre).length_le
    · cases h
  | cons c cs ih =>
    intro pat i h
    unfold findSub at h
    split at h
    · rename_i hpre
      injection h with h'
      subst h'
      simpa using (isPrefixOfIff.mp hpre).length_le
    · dsimp only at h
      rcases hf : findSub cs pat with _ | j <;> rw [hf] at h
      · cases h
      · injection h with h'
        subst h'
        have := ih pat j hf
        simp only [List.length_cons]
        omega

/-- Absence of the pattern is preserved by dropping the head. -/
theorem findSub_none_cons {c : Char} {cs pat : List Char}
    (h : findSub (c :: cs) pat = none) : findSub cs pat = none := by
  unfold findSub at h
  split at h
  · cases h
  · dsimp only at h
    rcases hf : findSub cs pat with _ | i
    · rfl
    · rw [hf] at h
      cases h

/-- When `findSub` finds nothing, the pattern is not a prefix. -/
theorem findSub_none_not_isPrefixOf {s pat : List Char}
    (h : findSub s pat = none) : pat.isPrefixOf s = false := by
  unfold findSub at h
  split at h
  · cases h
  · rename_i hpre
    exact Bool.not_eq_true _ ▸ eq_false_of_ne_true hpre

/-- The index `rfind` returns is inside the string. -/
theorem rfindChar_bound :
    ∀ (s : List Char) (c : Char) (j : Nat), rfindChar s c = some j →
      j < s.length := by
  intro s
  induction s with
  | nil =>
    intro c j h
    cases h
  | cons d rest ih =>
    intro c j h
    unfold rfindChar at h
    rcases hr : rfindChar rest c with _ | j' <;> rw [hr] at h <;>
      dsimp only at h
    · by_cases hd : d = c
      · rw [if_pos hd] at h
        injection h with h'
        subst h'
        simp
      · rw [if_neg hd] at h
        cases h
    · injection h with h'
      subst h'
      have := ih c j' hr
      simp only [List.length_cons]
      omega

/-- Length after the in-place removal. -/
theorem replaceRange_length (s : List Char) (a b : Nat) :
    (replaceRange s a b).length = min a s.length + (s.length - b) := by
  simp [replaceRange]

/-- The collapse loop terminates with no `/../` occurrence left. -/
theorem collapseFuel_no_sub :
    ∀ (fuel : Nat) (s : List Char), s.length < fuel →
      findSub (collapseFuel fuel s) slashDotDotSlash = none := by
  intro fuel
  induction fuel with
  | zero =>
    intro s h
    omega
  | succ f ih =>
    intro s h
    unfold collapseFuel
    rcases hf : findSub s slashDotDotSlash with _ | pos
    · exact hf
    · have hb := findSub_bound s slashDotDotSlash pos hf
      dsimp only
      rcases hr : rfindChar (s.take pos) '/' with _ | prev
      · dsimp only
        apply ih
        rw [replaceRange_length]
        simp only [slashDotDotSlash, List.length_cons, List.length_nil] at hb
        omega
      · dsimp only
        have hrb := rfindChar_bound (s.take pos) '/' prev hr
        rw [List.length_take] at hrb
        apply ih
        rw [replaceRange_length]
        simp only [slashDotDotSlash, List.length_cons, List.length_nil] at hb
        omega

/-- The strip loop leaves no leading `../` and preserves the absence
of any pattern. -/
theorem stripLeading_spec (s : List Char) :
    dotDotSlash.isPrefixOf (stripLeadingDotDot s) = false ∧
    (∀ pat, findSub s pat = none → findSub (stripLeadingDotDot s) pat = none) := by
  induction s using stripLeadingDotDot.induct with
  | case1 rest ih =>
    constructor
    · exact ih.1
    · intro pat h
      exact ih.2 pat (findSub_none_cons (findSub_none_cons (findSub_none_cons h)))
  | case2 s hne =>
    have heq : stripLeadingDotDot s = s := by
      unfold stripLeadingDotDot
      split
      · rename_i rest
        exact absurd rfl (hne rest)
      · rfl
    rw [heq]
    refine ⟨?_, fun pat h => h⟩
    rcases s with _ | ⟨c1, s1⟩
    · rfl
    · rcases s1 with _ | ⟨c2, s2⟩
      · simp [dotDotSlash, List.isPrefixOf]
      · rcases s2 with _ | ⟨c3, s3⟩
        · simp [dotDotSlash, List.isPrefixOf]
        · by_cases h1 : c1 = '.' ∧ c2 = '.' ∧ c3 = '/'
          · exact absurd (by rw [h1.1, h1.2.1, h1.2.2]) (hne s3)
          · simp [dotDotSlash, List.isPrefixOf]
            intro e1 e2 e3
            exact h1 ⟨e1.symm, e2.symm, e3.symm⟩

/-- Splitting never yields the empty list of segments. -/
theorem splitSlash_ne_nil (cs : List Char) : splitSlash cs ≠ [] := by
  rcases cs with _ | ⟨c, rest⟩
  · simp [splitSlash]
  · unfold splitSlash
    by_cases hc : c = '/'
    · rw [if_pos hc]
      simp
    · rw [if_neg hc]
      rcases h : splitSlash rest with _ | ⟨s, ss⟩ <;> simp

/-- A non-final segment is followed by a slash in the source string. -/
theorem splitSlash_head_slash :
    ∀ (cs s : List Char) (ss : List (List Char)),
      splitSlash cs = s :: ss → ss ≠ [] → (s ++ ['/']) <+: cs
  | [], s, ss, h, hne => by
    unfold splitSlash at h
    injection h with h1 h2
    exact absurd h2.symm hne
  | c :: rest, s, ss, h, hne => by
    unfold splitSlash at h
    by_cases hc : c = '/'
    · rw [if_pos hc] at h
      injection h with h1 h2
      subst h1
      exact ⟨rest, by rw [hc]; rfl⟩
    · rw [if_neg hc] at h
      rcases hsp : splitSlash rest with _ | ⟨s', ss'⟩ <;> rw [hsp] at h
      · injection h with h1 h2
        exact absurd h2.symm hne
      · injection h with h1 h2
        subst h1
        subst h2
        obtain ⟨t, ht⟩ := splitSlash_head_slash rest s' ss' hsp hne
        exact ⟨t, by rw [List.cons_append, List.cons_append, ht]⟩

/-- Under no `/../` occurrence, no segment strictly between the first
and the last is `..`. -/
theorem splitSlash_mid_ne :
    ∀ (cs : List Char), findSub cs slashDotDotSlash = none →
      ∀ j : Nat, ((splitSlash cs)[j + 2]?).isSome →
        (splitSlash cs)[j + 1]? ≠ some ['.', '.']
  | [], _, j => by
    intro hsome
    simp [splitSlash] at hsome
  | c :: rest, hno, j => by
    have hno' : findSub rest slashDotDotSlash = none := findSub_none_cons hno
    unfold splitSlash
    by_cases hc : c = '/'
    · rw [if_pos hc]
      intro hsome
      rcases j with _ | j'
      · -- the segment right after the leading slash
        simp only [List.getElem?_cons_succ] at hsome ⊢
        intro h0
        rcases hsp : splitSlash rest with _ | ⟨s0, ss⟩ <;> rw [hsp] at hsome h0
        · cases h0
        · rw [List.getElem?_cons_zero] at h0
          have hs0 : s0 = ['.', '.'] := Option.some.inj h0
          subst hs0
          have hss : ss ≠ [] := by
            intro he
            rw [he] at hsome
            simp at hsome
          obtain ⟨t, ht⟩ := splitSlash_head_slash rest _ ss hsp hss
          have hpre2 : slashDotDotSlash.isPrefixOf (c :: rest) = true := by
            apply isPrefixOfIff.mpr
            subst hc
            exact ⟨t, congrArg (fun l => '/' :: l) ht⟩
          rw [findSub_none_not_isPrefixOf hno] at hpre2
          cases hpre2
      · simp only [List.getElem?_cons_succ] at hsome ⊢
        exact splitSlash_mid_ne rest hno' j' hsome
    · rw [if_neg hc]
      rcases hsp : splitSlash rest with _ | ⟨s', ss'⟩
      · intro hsome
        simp at hsome
      · intro hsome h1
        have hsome' : ((splitSlash rest)[j + 2]?).isSome := by
          rw [hsp]
          simpa using hsome
        have h1' : (splitSlash rest)[j + 1]? = some ['.', '.'] := by
          rw [hsp]
          simpa using h1
        exact splitSlash_mid_ne rest hno' j hsome' h1'

/-- Under no `/../` occurrence and no leading `../`, a first segment
with a successor is not `..`. -/
theorem splitSlash_head_ne (cs : List Char)
    (hno : findSub cs slashDotDotSlash = none)
    (hpre : dotDotSlash.isPrefixOf cs = false) :
    ((splitSlash cs)[1]?).isSome → (splitSlash cs)[0]? ≠ some ['.', '.'] := by
  intro hsome h0
  rcases hsp : splitSlash cs with _ | ⟨s0, ss⟩ <;> rw [hsp] at hsome h0
  · cases h0
  · rw [List.getElem?_cons_zero] at h0
    have hs0 : s0 = ['.', '.'] := Option.some.inj h0
    subst hs0
    have hss : ss ≠ [] := by
      intro he
      rw [he] at hsome
      simp at hsome
    obtain ⟨t, ht⟩ := splitSlash_head_slash cs _ ss hsp hss
    have hpre2 : dotDotSlash.isPrefixOf cs = true := isPrefixOfIff.mpr ⟨t, ht⟩
    rw [hpre] at hpre2
    cases hpre2

/-- Resolution of a segment list whose non-final segments are never
`..` either stays below the base or pops exactly once into the base's
parent. -/
theorem resolve_no_mid_up :
    ∀ (segs : List String),
      (∀ i : Nat, (segs[i + 1]?).isSome → segs[i]? ≠ some "..") →
      ∀ base : List String,
        (∃ ys, segs.foldl resolveStep base = base ++ ys) ∨
          segs.foldl resolveStep base = base.dropLast
  | [], _, base => Or.inl ⟨[], (List.append_nil base).symm⟩
  | s :: rest, h, base => by
    by_cases hrest : rest = []
    · subst hrest
      simp only [List.foldl_cons, List.foldl_nil]
      unfold resolveStep
      by_cases h1 : s = "" ∨ s = "."
      · rw [if_pos h1]
        exact Or.inl ⟨[], (List.append_nil base).symm⟩
      · rw [if_neg h1]
        by_cases h2 : s = ".."
        · rw [if_pos h2]
          exact Or.inr rfl
        · rw [if_neg h2]
          exact Or.inl ⟨[s], rfl⟩
    · have hr0 : 0 < rest.length := List.length_pos.mpr hrest
      have hs : s ≠ ".." := by
        have hh := h 0 (by
          rw [List.getElem?_cons_succ, List.getElem?_eq_getElem hr0]
          rfl)
        intro he
        exact hh (by rw [List.getElem?_cons_zero, he])
      have hshift : ∀ i : Nat, (rest[i + 1]?).isSome → rest[i]? ≠ some ".." := by
        intro i hi
        have := h (i + 1) (by simpa using hi)
        simpa using this
      have ih := resolve_no_mid_up rest hshift
      simp only [List.foldl_cons]
      have hbase' : resolveStep base s = base ∨
          resolveStep base s = base ++ [s] := by
        unfold resolveStep
        by_cases h1 : s = "" ∨ s = "."
        · rw [if_pos h1]
          exact Or.inl rfl
        · rw [if_neg h1, if_neg hs]
          exact Or.inr rfl
      rcases hbase' with hb | hb <;> rw [hb]
      · exact ih base
      · rcases ih (base ++ [s]) with ⟨ys, hys⟩ | hys
        · exact Or.inl ⟨[s] ++ ys, by rw [hys, List.append_assoc]⟩
        · rw [List.dropLast_concat] at hys
          exact Or.inl ⟨[], by rw [hys, List.append_nil]⟩

/-- The string the server hands to `join` after collapsing and, in the
`../` branch, stripping: the final branch decides the join base. -/
def serverJoinArg (rawUrl : String) : List Char :=
  let req := serverReqPath rawUrl
  if dotDotSlash.isPrefixOf req then stripLeadingDotDot req else req

/-- Joining a collapsed, non-`../`-leading, relative request string
onto a base stays below the base or pops exactly one level. -/
theorem serve_branch (base : List String) (cs : List Char)
    (hbase : NormalComps base)
    (hnosub : findSub cs slashDotDotSlash = none)
    (hpre : dotDotSlash.isPrefixOf cs = false)
    (hhead : ¬ (cs.head? = some '/')) :
    (∃ ys, resolvePath (pathJoin base (String.mk cs)) = base ++ ys) ∨
      resolvePath (pathJoin base (String.mk cs)) = base.dropLast := by
  have hmid : ∀ i : Nat,
      (((splitSlash cs).map fun l => String.mk l)[i + 1]?).isSome →
      ((splitSlash cs).map fun l => String.mk l)[i]? ≠ some ".." := by
    intro i hi hcontra
    rw [List.getElem?_map] at hi hcontra
    have hi' : ((splitSlash cs)[i + 1]?).isSome := by
      rcases hx : (splitSlash cs)[i + 1]? with _ | x
      · rw [hx] at hi
        simp at hi
      · rfl
    have hc' : (splitSlash cs)[i]? = some ['.', '.'] := by
      rcases hx : (splitSlash cs)[i]? with _ | x
      · rw [hx] at hcontra
        cases hcontra
      · rw [hx] at hcontra
        dsimp only [Option.map] at hcontra
        have hx2 : x = ['.', '.'] :=
          congrArg String.data (Option.some.inj hcontra)
        exact congrArg some hx2
    rcases i with _ | j
    · exact splitSlash_head_ne cs hnosub hpre hi' hc'
    · exact splitSlash_mid_ne cs hnosub j hi' hc'
  unfold pathJoin splitSlashStr resolvePath
  rw [if_neg hhead, List.foldl_append,
    foldl_resolveStep_normal base [] hbase, List.nil_append]
  exact resolve_no_mid_up _ hmid base

/-- C10 (amended): `/../` occurrences are collapsed before joining,
but the result is not always joined under the served root: a collapsed
path still beginning with `../` is joined — minus its leading `../`
repetitions — under the PARENT of the root, and, because
`PathBuf::join` replaces the whole path when its argument is absolute,
a remainder that begins with `/` is served from that absolute
filesystem path, escaping the root entirely (`c10_counterexample`
exhibits both `GET /../secret.txt` ↦ `{parent}/secret.txt` and
`GET /..//etc/passwd` ↦ `/etc/passwd`).  Only when the remainder is
relative does the resolved path lie within (or at an ancestor of) the
parent directory of the served root. -/
theorem c10_server_resolved_containment (outDir : List String) (raw : String)
    (hnorm : NormalComps outDir) :
    (¬ ((serverJoinArg raw).head? = some '/') →
      (outDir.dropLast <+: resolvePath (serverFsPath outDir raw) ∨
        resolvePath (serverFsPath outDir raw) <+: outDir.dropLast)) ∧
    ((serverJoinArg raw).head? = some '/' →
      serverFsPath outDir raw = splitSlashStr (String.mk (serverJoinArg raw))) := by
  have hnosub : findSub (serverReqPath raw) slashDotDotSlash = none := by
    unfold serverReqPath collapseDotDot
    exact collapseFuel_no_sub _ _ (Nat.lt_succ_self _)
  constructor
  · intro hhead
    unfold serverFsPath
    by_cases hpre : dotDotSlash.isPrefixOf (serverReqPath raw) = true
    · rw [if_pos hpre]
      have hhead' : ¬ ((stripLeadingDotDot (serverReqPath raw)).head? =
          some '/') := by
        intro hh
        apply hhead
        unfold serverJoinArg
        rw [if_pos hpre]
        exact hh
      have hsp := stripLeading_spec (serverReqPath raw)
      rcases serve_branch outDir.dropLast
          (stripLeadingDotDot (serverReqPath raw))
          (fun s hs => hnorm s ((List.dropLast_sublist outDir).subset hs))
          (hsp.2 _ hnosub) hsp.1 hhead' with ⟨ys, hys⟩ | hys
      · rw [hys]
        exact Or.inl ⟨ys, rfl⟩
      · rw [hys]
        exact Or.inr (isPrefixDropLast _)
    · rw [if_neg hpre]
      have hhead' : ¬ ((serverReqPath raw).head? = some '/') := by
        intro hh
        apply hhead
        unfold serverJoinArg
        rw [if_neg hpre]
        exact hh
      rcases serve_branch outDir (serverReqPath raw) hnorm hnosub
          (eq_false_of_ne_true hpre) hhead' with ⟨ys, hys⟩ | hys
      · rw [hys]
        exact Or.inl ((isPrefixDropLast outDir).trans ⟨ys, rfl⟩)
      · rw [hys]
        exact Or.inl ⟨[], List.append_nil _⟩
  · intro hhead
    unfold serverFsPath pathJoin
    unfold serverJoinArg at hhead
    by_cases hpre : dotDotSlash.isPrefixOf (serverReqPath raw) = true
    · rw [if_pos hpre] at hhead ⊢
      rw [if_pos hhead]
      unfold serverJoinArg
      rw [if_pos hpre]
    · rw [if_neg hpre] at hhead ⊢
      rw [if_pos hhead]
      unfold serverJoinArg
      rw [if_neg hpre]

/-- C10 witness: the amended behaviour evaluated concretely — a plain
in-root request resolves under the root's parent, and an
absolute-remainder request is served from exactly that absolute path. -/
theorem c10_server_resolved_containment_witness :
    ((["home", "user", "www"] : List String).dropLast <+:
        resolvePath (serverFsPath ["home", "user", "www"] "/a/b.html") ∨
      resolvePath (serverFsPath ["home", "user", "www"] "/a/b.html") <+:
        (["home", "user", "www"] : List String).dropLast) ∧
    serverFsPath ["home", "user", "www"] "/..//etc/passwd" =
      splitSlashStr (String.mk (serverJoinArg "/..//etc/passwd")) :=
  ⟨(c10_server_resolved_containment ["home", "user", "www"] "/a/b.html"
      (by decide)).1 (by decide),
   (c10_server_resolved_containment ["home", "user", "www"] "/..//etc/passwd"
      (by decide)).2 (by decide)⟩

/-- C10 counterexample: `GET /../secret.txt` is served from the PARENT
of the root (outside the root), and `GET /..//etc/passwd` leaves the
absolute remainder `/etc/passwd`, which `PathBuf::join` serves as the
absolute path `/etc/passwd` — outside the root, its parent, and any
directory related to them. -/
theorem c10_counterexample :
    serverFsPath ["home", "user", "www"] "/../secret.txt" =
      ["home", "user", "secret.txt"] ∧
    ¬ ((["home", "user", "www"] : List String) <+:
        resolvePath (serverFsPath ["home", "user", "www"] "/../secret.txt")) ∧
    serverFsPath ["home", "user", "www"] "/..//etc/passwd" =
      ["", "etc", "passwd"] ∧
    resolvePath (serverFsPath ["home", "user", "www"] "/..//etc/passwd") =
      ["etc", "passwd"] ∧
    ¬ ((["home", "user"] : List String) <+: ["etc", "passwd"]) ∧
    ¬ ((["etc", "passwd"] : List String) <+: ["home", "user"]) := by
  decide
